import Mathlib

/-!
Verification of `tools/self_heal.py` (CI self-healing patch engine).

This file gives a shallow embedding of the pure core of the script and of
its effectful parts (HTTP, subprocess, file system) as functions over
explicit oracle/environment values, and proves or refutes the frozen
claims about the specification.

Conventions:
* Python strings are modelled as Lean `String` / `List Char`.
* Python functions that can raise are modelled with `Except`.
* `os.getenv` is an `Option String`; Python truthiness of a string value
  (`if not val`) is `val = none ∨ val = some ""`.
* All definitions are structurally recursive so that concrete runs reduce
  inside the kernel (`decide` / `rfl`).
-/

set_option autoImplicit false

namespace SelfHeal

/-! Definitions: the shallow embedding of the program. -/

instance {ε α : Type} [DecidableEq ε] [DecidableEq α] : DecidableEq (Except ε α) := fun x y =>
  match x, y with
  | .error a, .error b => decidable_of_iff (a = b) (by simp)
  | .ok a, .ok b => decidable_of_iff (a = b) (by simp)
  | .error _, .ok _ => isFalse (fun h => Except.noConfusion h)
  | .ok _, .error _ => isFalse (fun h => Except.noConfusion h)

/-- The characters stripped by Python `str.strip()`. -/
def isPySpace (c : Char) : Bool :=
  c = ' ' || c = '\t' || c = '\n' || c = '\r' || c = '\x0b' || c = '\x0c'

/-- Python `str.strip()`. -/
def pyStrip (s : String) : String :=
  String.mk (((s.data.dropWhile isPySpace).reverse.dropWhile isPySpace).reverse)

/-- Split a character list at every `'\n'`, Python `str.splitlines()` style:
the separators are dropped and a trailing separator produces no extra empty
line.  (The script only ever feeds LF-separated text to `splitlines`.) -/
def splitLF : List Char → List (List Char)
  | [] => []
  | c :: rest =>
    if c = '\n' then [] :: splitLF rest
    else
      match splitLF rest with
      | [] => [[c]]
      | l :: ls => (c :: l) :: ls

/-- Python `str.splitlines()` for LF-separated text. -/
def pySplitlines (s : String) : List String :=
  (splitLF s.data).map String.mk

/-- Worker for `pyReplace`: scan left to right; `skip > 0` means we are
still inside the span of needle characters consumed by the previous
replacement. -/
def replGo (a b : List Char) : List Char → Nat → List Char
  | [], _ => []
  | _ :: rest, Nat.succ k => replGo a b rest k
  | c :: rest, 0 =>
    if a ≠ [] ∧ a.isPrefixOf (c :: rest) then
      b ++ replGo a b rest (a.length - 1)
    else
      c :: replGo a b rest 0

/-- Python `str.replace(a, b)` (replace all occurrences, scanning left to
right, never rescanning the replacement).  All needles used by the script
are nonempty; for an empty needle this returns the input unchanged. -/
def pyReplace (a b s : List Char) : List Char :=
  replGo a b s 0

/-- Python `sub in s` (substring occurrence test). -/
def occursB (a : List Char) : List Char → Bool
  | [] => a.isEmpty
  | c :: rest => a.isPrefixOf (c :: rest) || occursB a rest

/-- Strip trailing `'\n'` characters: Python `str.rstrip("\n")`. -/
def rstripNl (s : List Char) : List Char :=
  (s.reverse.dropWhile (fun c => c = '\n')).reverse

/-- Python `str.startswith` (character-level; avoids `String.Pos`). -/
def pyStartsWith (s pre : String) : Bool :=
  pre.data.isPrefixOf s.data

/-- Python `s[n:]` (character-level; avoids `String.Pos`). -/
def pyDrop (s : String) (n : Nat) : String :=
  String.mk (s.data.drop n)

/-- Python `"\n".join(...)`, producing the character list. -/
def joinNl : List String → List Char
  | [] => []
  | [s] => s.data
  | s :: rest => s.data ++ '\n' :: joinNl rest

/-- Spec-side helper: scan forward for the first line whose stripped
content is exactly `<<<END_FILE`; return the lines before it and the lines
after it (the terminator itself is consumed). -/
def splitAtTerm : List String → Option (List String × List String)
  | [] => none
  | l :: rest =>
    if pyStrip l = "<<<END_FILE" then some ([], rest)
    else
      match splitAtTerm rest with
      | none => none
      | some (buf, r) => some (l :: buf, r)

/-- The body of one parsed block: Python
`"\n".join(buf).rstrip("\n") + "\n"`. -/
def mkContent (buf : List String) : String :=
  String.mk (rstripNl (joinNl buf) ++ ['\n'])

/-- The forward scan of `parse_patches` over the (cleaned) list of lines,
as the state machine of the Python `while` loop: state `none` means "not
inside a block"; state `some (path, buf)` means a `FILE: path` line has
been seen and `buf` holds the body lines buffered so far.  Reaching end of
input while buffering raises
`RuntimeError(f"Missing terminator for file {path}")`, modelled as
`Except.error`. -/
def parseGo : List String → Option (String × List String) →
    Except String (List (String × String))
  | [], none => .ok []
  | [], some (path, _) => .error ("Missing terminator for file " ++ path)
  | l :: rest, none =>
    if pyStartsWith (pyStrip l) "FILE:" then
      parseGo rest (some (pyStrip (pyDrop (pyStrip l) 5), []))
    else
      parseGo rest none
  | l :: rest, some (path, buf) =>
    if pyStrip l = "<<<END_FILE" then
      match parseGo rest none with
      | .error e => .error e
      | .ok ps => .ok ((path, mkContent buf) :: ps)
    else
      parseGo rest (some (path, buf ++ [l]))

/-- The lines `parse_patches` scans: the response with all triple-backtick
fences removed, split into lines. -/
def pyCleanedLines (content : String) : List String :=
  pySplitlines (String.mk (pyReplace ("```").data [] content.data))

/-- Function `parse_patches` from `tools/self_heal.py`. -/
def parse_patches (content : String) : Except String (List (String × String)) :=
  parseGo (pyCleanedLines content) none

/-- Modelled from the spec: the list of well-terminated `FILE:` blocks of a
response, in document order, each carrying the path written after `FILE:`
(trimmed) and the block body joined by newlines, right-trimmed of trailing
newlines, with exactly one newline appended.  Used to state the refinement
claim C1 against `parse_patches`. -/
def specBlocksGo : List String → Option (String × List String) →
    List (String × String)
  | [], _ => []
  | l :: rest, none =>
    if pyStartsWith (pyStrip l) "FILE:" then
      specBlocksGo rest (some (pyStrip (pyDrop (pyStrip l) 5), []))
    else
      specBlocksGo rest none
  | l :: rest, some (path, buf) =>
    if pyStrip l = "<<<END_FILE" then
      (path, mkContent buf) :: specBlocksGo rest none
    else
      specBlocksGo rest (some (path, buf ++ [l]))

def specBlocks (lines : List String) : List (String × String) :=
  specBlocksGo lines none

/-- Claim C1's premise: every line whose trimmed content starts with
`FILE:` is eventually followed by a later line whose trimmed content is
exactly `<<<END_FILE`. -/
def wellTerminated (lines : List String) : Prop :=
  ∀ i : Fin lines.length, (pyStartsWith (pyStrip (lines.get i)) "FILE:") = true →
    ∃ j : Fin lines.length, i.val < j.val ∧ pyStrip (lines.get j) = "<<<END_FILE"

instance (lines : List String) : Decidable (wellTerminated lines) := by
  unfold wellTerminated
  infer_instance

/-- Predicate: a `FILE:` block opener at position `i`. -/
def fileAt (lines : List String) (i : Fin lines.length) : Prop :=
  (pyStartsWith (pyStrip (lines.get i)) "FILE:") = true

/-- No terminator line anywhere after position `i`. -/
def noTermAfter (lines : List String) (i : Fin lines.length) : Prop :=
  ∀ j : Fin lines.length, i.val < j.val → pyStrip (lines.get j) ≠ "<<<END_FILE"

/-- Claim C3's premise: some line opens a `FILE:` block and no later line
is a terminator. -/
def hasUnterminated (lines : List String) : Prop :=
  ∃ i : Fin lines.length, fileAt lines i ∧ noTermAfter lines i

instance (lines : List String) : Decidable (hasUnterminated lines) := by
  unfold hasUnterminated fileAt noTermAfter
  infer_instance

/-- A produced content string ends in exactly one trailing newline. -/
def endsExactlyOneNl (s : String) : Prop :=
  ∃ t : List Char, s.data = t ++ ['\n'] ∧ t.getLast? ≠ some '\n'

/-- Split a character list on a separator, keeping empty segments. -/
def splitOnChar (sep : Char) : List Char → List (List Char)
  | [] => [[]]
  | c :: rest =>
    if c = sep then [] :: splitOnChar sep rest
    else
      match splitOnChar sep rest with
      | [] => [[c]]
      | l :: ls => (c :: l) :: ls

/-- A path as `pathlib.PurePosixPath` parses it: absolute iff it starts
with `/`; components are the slash-separated segments with empty and `.`
segments dropped (`..` is kept). -/
structure PyPath where
  absolute : Bool
  comps : List String

/-- Parse a path string, `pathlib` style. -/
def parsePath (s : String) : PyPath :=
  { absolute := pyStartsWith s ("/")
    comps := ((splitOnChar '/' s.data).map String.mk).filter
      (fun c => !(c = "" || c = ".")) }

/-- Normalise `..` components against an absolute component list, as
`Path.resolve()` does on a symlink-free tree (`..` at the filesystem root
stays at the root). -/
def resolveComps (cs : List String) : List String :=
  cs.foldl (fun acc c => if c = ".." then acc.dropLast else acc ++ [c]) []

/-- Resolution `(REPO_ROOT / rel_path).resolve()`: join (an absolute `rel_path`
replaces the root), then normalise.  `root` is the component list of the
already-resolved repository root. -/
def resolvePath (root : List String) (rel : String) : List String :=
  let p := parsePath rel
  resolveComps (if p.absolute then p.comps else root ++ p.comps)

/-- Model of `pathlib` `target.parents`: the strict ancestors of a path, i.e.
the proper prefixes of its component list. -/
def pathParents (t : List String) : List (List String) :=
  (List.inits t).dropLast

/-- Function `apply_patches` from `tools/self_heal.py`, as the list of writes it
performs (target component list, content), in order.  The guard is the
code's `if REPO_ROOT not in target.parents and target != REPO_ROOT:
continue`. -/
def apply_patches (root : List String) : List (String × String) →
    List (List String × String)
  | [] => []
  | (relPath, content) :: rest =>
    let target := resolvePath root relPath
    if ¬ (pathParents target).contains root ∧ target ≠ root then
      apply_patches root rest
    else
      (target, content) :: apply_patches root rest

/-- Function `apply_patches` with a fallible file system: `failing target = true`
means `target.write_text` raises.  The result records the writes performed
and whether the loop ran to completion; the loop body has no exception
handler, so a raised write aborts the whole `for` loop. -/
def apply_patches_fallible (root : List String) (failing : List String → Bool) :
    List (String × String) → List (List String × String) × Bool
  | [] => ([], true)
  | (relPath, content) :: rest =>
    let target := resolvePath root relPath
    if ¬ (pathParents target).contains root ∧ target ≠ root then
      apply_patches_fallible root failing rest
    else if failing target then
      ([], false)
    else
      let r := apply_patches_fallible root failing rest
      ((target, content) :: r.1, r.2)

/-- Modelled from the spec (amended form of C2): a patch is written iff
its resolved target is a strict descendant of the repository root or the
root itself. -/
def acceptedWrite (root : List String) (p : String × String) :
    Option (List String × String) :=
  let target := resolvePath root p.1
  if (root <+: target ∧ target ≠ root) ∨ target = root then
    some (target, p.2)
  else
    none

/-- ASCII lowercase, as used by `re.IGNORECASE` on the script's ASCII
patterns. -/
def lowerChar (c : Char) : Char :=
  if 'A' ≤ c ∧ c ≤ 'Z' then Char.ofNat (c.toNat + 32) else c

/-- Case-insensitive literal match: strip `p` (case-insensitively) from
the front of the input, returning the remainder. -/
def stripCI : List Char → List Char → Option (List Char)
  | [], cs => some cs
  | _ :: _, [] => none
  | p :: ps, c :: cs => if lowerChar p = lowerChar c then stripCI ps cs else none

/-- The literal `\[uint32\]` part of the fixer's regex. -/
def tail1 : List Char := ['u', 'i', 'n', 't', '3', '2', ']']

def pat1 : List Char := '[' :: tail1

def pat2tail : List Char := ['x', 'F', 'F', 'F', 'F', 'F', 'F', 'F', 'F']

/-- The literal `0xFFFFFFFF` part of the fixer's regex. -/
def pat2 : List Char := '0' :: pat2tail

/-- The replacement `[uint32]::MaxValue`. -/
def replTail : List Char :=
  ['u', 'i', 'n', 't', '3', '2', ']', ':', ':', 'M', 'a', 'x', 'V', 'a', 'l', 'u', 'e']

def uintRepl : List Char := '[' :: replTail

/-- Match the regex `\[uint32\]\s*0xFFFFFFFF` (with `re.IGNORECASE`) at
the head of the input; on success return the unconsumed remainder.  The
greedy `\s*` followed by a literal starting with a non-space character is
equivalent to dropping all leading whitespace. -/
def matchPat (cs : List Char) : Option (List Char) :=
  match stripCI pat1 cs with
  | none => none
  | some cs1 => stripCI pat2 (cs1.dropWhile isPySpace)

/-- The tail-stage of `matchPat` after the leading `[` was consumed:
`q` is the not-yet-consumed part of `\[uint32\]`. -/
def matchTail (q : List Char) (l : List Char) : Option (List Char) :=
  match stripCI q l with
  | none => none
  | some l1 => stripCI pat2 (l1.dropWhile isPySpace)

/-- Worker for `subAll`: left-to-right scan with a skip counter for the
characters consumed by the previous replacement. -/
def subGo : List Char → Nat → List Char
  | [], _ => []
  | _ :: rest, Nat.succ k => subGo rest k
  | c :: rest, 0 =>
    match matchPat (c :: rest) with
    | some after => uintRepl ++ subGo rest ((c :: rest).length - after.length - 1)
    | none => c :: subGo rest 0

/-- Python `re.sub(r"\[uint32\]\s*0xFFFFFFFF", "[uint32]::MaxValue", text,
flags=re.IGNORECASE)`: replace every non-overlapping leftmost match. -/
def subAll (cs : List Char) : List Char :=
  subGo cs 0

/-- Fixer `fix_common_ps_uint32_hex_overflow` as a pure function on the text of
`tools/common.ps1`: `re.sub` the unsafe literal cast, report "changed" iff
the text differs.  (Reading/writing the file, and the early `False` when
the file is missing, surround this in the script.) -/
def fix_common_ps_uint32_hex_overflow (text : List Char) : List Char × Bool :=
  if subAll text ≠ text then (subAll text, true) else (text, false)

/-- Python `str.strip()` on a character list. -/
def pyStripC (l : List Char) : List Char :=
  ((l.dropWhile isPySpace).reverse.dropWhile isPySpace).reverse

/-- Python `str.splitlines(True)` (keepends) for LF-separated text. -/
def splitKE : List Char → List (List Char)
  | [] => []
  | c :: rest =>
    if c = '\n' then ['\n'] :: splitKE rest
    else
      match splitKE rest with
      | [] => [[c]]
      | l :: ls => (c :: l) :: ls

/-- Python `"".join(...)`. -/
def joinAll : List (List Char) → List Char
  | [] => []
  | l :: ls => l ++ joinAll ls

/-- Insert `ins` immediately before the first occurrence of `m`
(Python `text[:idx] + ins + text[idx:]` with `idx = text.find(m)`);
unchanged when `m` does not occur. -/
def insertBefore (m ins : List Char) : List Char → List Char
  | [] => []
  | c :: rest =>
    if m.isPrefixOf (c :: rest) then ins ++ c :: rest
    else c :: insertBefore m ins rest

def marker3 : List Char := "function Convert-CidrToRange \x7b".data

def guard3a : List Char := "Invalid CIDR format".data

def guard3b : List Char := "Invalid prefix length in CIDR".data

def needle3a : List Char := "$prefix = [int]$parts[1]".data

def needle3 : List Char :=
  "$prefix = [int]$parts[1]\n  $ipInt = Convert-IPv4ToUInt32 -Ip $ip\n".data

def repl3 : List Char :=
  ("$prefix = [int]$parts[1]\n  if ($prefix -lt 0 -or $prefix -gt 32) \x7b\n    throw \"Invalid prefix length in CIDR: $Cidr\"\n  \x7d\n  try \x7b\n    [void][System.Net.IPAddress]::Parse($ip)\n  \x7d catch \x7b\n    throw \"Invalid IP in CIDR: $Cidr\"\n  \x7d\n  $ipInt = Convert-IPv4ToUInt32 -Ip $ip\n").data

/-- The second inserted validation line (it contains the guard string
`Invalid CIDR format`). -/
def iLine2 : List Char := "    throw \"Invalid CIDR format: <empty>\"\n".data

/-- The seven lines inserted after the `param(` line. -/
def insLines : List (List Char) :=
  ["  if ([string]::IsNullOrWhiteSpace($Cidr)) \x7b\n".data,
   iLine2,
   "  \x7d\n".data,
   "  $Cidr = $Cidr.Trim()\n".data,
   "  if (-not ($Cidr -match \x27^\\d\x7b1,3\x7d(\\.\\d\x7b1,3\x7d)\x7b3\x7d/\\d\x7b1,2\x7d$\x27)) \x7b\n".data,
   "    throw \"Invalid CIDR format: $Cidr\"\n".data,
   "  \x7d\n".data]

/-- The line-splicing loop of `fix_common_ps_cidr_validation`: every line
is kept; the marker line arms `in_target`; the first `param(` line while
armed gets the validation lines appended after it.  (The loop's third
branch, on `$prefix =` lines, only executes `continue` and changes
nothing.) -/
def insGo : List (List Char) → Bool → Bool → List (List Char)
  | [], _, _ => []
  | line :: rest, inT, ins =>
    if pyStripC line = marker3 then
      line :: insGo rest true ins
    else if inT = true ∧ ins = false ∧ "param(".data.isPrefixOf (pyStripC line) then
      line :: (insLines ++ insGo rest inT true)
    else
      line :: insGo rest inT ins

/-- The text produced by `fix_common_ps_cidr_validation` after insertion
and the conditional replace. -/
def fix3core (text : List Char) : List Char :=
  let text2 := joinAll (insGo (splitKE text) false false)
  if occursB needle3a text2 && !occursB guard3b text2 then
    pyReplace needle3 repl3 text2
  else
    text2

/-- Fixer `fix_common_ps_cidr_validation` as a pure function on the text of
`tools/common.ps1`: no-op when the target function's marker is absent or
the validation guard strings are already present; otherwise insert the
validation lines and conditionally add the prefix-range check. -/
def fix_common_ps_cidr_validation (text : List Char) : List Char × Bool :=
  if occursB marker3 text = false then (text, false)
  else if occursB guard3a text || occursB guard3b text then (text, false)
  else if fix3core text ≠ text then (fix3core text, true) else (text, false)

def gHelp : List Char := "function Get-SubnetAddressPrefixes".data

def markerTCO : List Char := "function Test-CidrOverlap \x7b".data

def helperAddrPrefixes : List Char :=
  ("function Get-SubnetAddressPrefixes \x7b\n  param([Parameter(Mandatory)] $SubnetObj)\n\n  $prefixes = @()\n  if ($null -eq $SubnetObj) \x7b return @() \x7d\n\n  if ($null -ne $SubnetObj.PSObject.Properties[\x27addressPrefix\x27]) \x7b\n    $prefixes += @($SubnetObj.addressPrefix)\n  \x7d\n  if ($null -ne $SubnetObj.PSObject.Properties[\x27addressPrefixes\x27]) \x7b\n    $prefixes += @($SubnetObj.addressPrefixes)\n  \x7d\n\n  return @(\n    $prefixes |\n      Where-Object \x7b -not [string]::IsNullOrWhiteSpace($_) \x7d |\n      ForEach-Object \x7b $_.ToString().Trim() \x7d\n  )\n\x7d\n").data

def A1 : List Char := "Prefixes = @($_.addressPrefix) + @($_.addressPrefixes)".data

def B1 : List Char := "Prefixes = (Get-SubnetAddressPrefixes -SubnetObj $_)".data

def A2 : List Char :=
  "$existingPrefixes = @($existing.addressPrefix) + @($existing.addressPrefixes)".data

def B2 : List Char :=
  "$existingPrefixes = Get-SubnetAddressPrefixes -SubnetObj $existing".data

/-- Fixer `fix_common_ps_address_prefixes` as a pure function on the text of
`tools/common.ps1`: insert the helper (guarded by its own name not yet
occurring) before `function Test-CidrOverlap \x7b`, then rewrite the two
known call sites with `str.replace`. -/
def fix_common_ps_address_prefixes (text : List Char) : List Char × Bool :=
  let t1 := if occursB gHelp text then text
            else insertBefore markerTCO (helperAddrPrefixes ++ ['\n']) text
  let t3 := pyReplace A2 B2 (pyReplace A1 B1 t1)
  if t3 ≠ text then (t3, true) else (text, false)

/-- The starting text on which `fix_common_ps_address_prefixes` is not
idempotent: the replacement's trailing `$existing` recreates the search
string of the `$existingPrefixes` rewrite at the seam with the following
text. -/
def c6Input : List Char :=
  ("$existingPrefixes = @($existing.addressPrefix) + @($existing.addressPrefixes)" ++
   "Prefixes = @($existing.addressPrefix) + @($existing.addressPrefixes)").data

/-- An HTTP response as `download_logs` consumes it: the status code, the
`Location` header (if any), and whether the body is a zip archive that
extracts cleanly. -/
structure HttpResp where
  status : Nat
  location : Option String
  validZip : Bool

/-- The scratch-directory outcome of `download_logs`: logs extracted, or
one of the two placeholder text files. -/
inductive LogOutcome
  | extracted
  | downloadFailedPlaceholder
  | unavailablePlaceholder
deriving DecidableEq

/-- Python `resp.status_code in (301, 302, 303, 307, 308)`. -/
def isRedirect (n : Nat) : Bool :=
  n == 301 || n == 302 || n == 303 || n == 307 || n == 308

/-- Function `download_logs` from `tools/self_heal.py`, over a response oracle:
`resp` is the first authenticated GET, `fetch url` the follow-up GET on a
redirect target.  An archive that downloads and extracts is `extracted`;
every other provider outcome degrades to a placeholder file written into
the scratch directory, and the function returns normally. -/
def download_logs (resp : HttpResp) (fetch : String → HttpResp) : LogOutcome :=
  match resp.location with
  | some url =>
    if isRedirect resp.status && url != "" then
      if (fetch url).status == 200 && (fetch url).validZip then .extracted
      else .downloadFailedPlaceholder
    else if resp.status == 200 && resp.validZip then .extracted
    else .unavailablePlaceholder
  | none =>
    if resp.status == 200 && resp.validZip then .extracted
    else .unavailablePlaceholder

/-- The captured result of one git invocation. -/
structure CmdResult where
  exitCode : Nat
  stdout : String
  stderr : String

/-- Function `run(cmd, check=True, ...)` from `tools/self_heal.py`:
`subprocess.run` raises `CalledProcessError` when `check` is set and the
command exits nonzero.  (`run`'s default is `check=True`, and
`maybe_commit_and_push` never overrides it.) -/
def runCmd (check : Bool) (res : CmdResult) : Except String CmdResult :=
  if check = true ∧ res.exitCode ≠ 0 then .error ("CalledProcessError") else .ok res

/-- The git oracle: the result each invocation would produce. -/
structure GitEnv where
  status : CmdResult
  configName : CmdResult
  configEmail : CmdResult
  addAll : CmdResult
  commit : CmdResult
  push : CmdResult

/-- Function `maybe_commit_and_push` from `tools/self_heal.py`: the messages it
prints, and whether it returns or a `CalledProcessError` escapes.  (The
unconditional scratch-directory removal at the top is a file-system
effect with no bearing on this claim.)  Every `run` call uses the default
`check=True`. -/
def maybe_commit_and_push (g : GitEnv) : List String × Except String Unit :=
  match runCmd true g.status with
  | .error e => ([], .error e)
  | .ok st =>
    if pyStrip st.stdout = "" then (["[INFO] No changes to commit"], .ok ())
    else
      match runCmd true g.configName with
      | .error e => ([], .error e)
      | .ok _ =>
        match runCmd true g.configEmail with
        | .error e => ([], .error e)
        | .ok _ =>
          match runCmd true g.addAll with
          | .error e => ([], .error e)
          | .ok _ =>
            match runCmd true g.commit with
            | .error e => ([], .error e)
            | .ok commit =>
              let prints1 :=
                (if commit.stdout ≠ "" then [pyStrip commit.stdout] else []) ++
                (if commit.stderr ≠ "" then [pyStrip commit.stderr] else [])
              match runCmd true g.push with
              | .error e => (prints1, .error e)
              | .ok push =>
                (prints1 ++
                  (if push.stdout ≠ "" then [pyStrip push.stdout] else []) ++
                  (if push.stderr ≠ "" then [pyStrip push.stderr] else []) ++
                  ["[INFO] Changes pushed"], .ok ())

/-- A git oracle where the tree is dirty and `git commit` is rejected
with captured output. -/
def c9Git : GitEnv :=
  { status := ⟨0, " M tools/common.ps1", ""⟩
    configName := ⟨0, "", ""⟩
    configEmail := ⟨0, "", ""⟩
    addAll := ⟨0, "", ""⟩
    commit := ⟨1, "nothing staged", "commit rejected"⟩
    push := ⟨0, "", ""⟩ }

/-- Function `env_required` from `tools/self_heal.py`: `if not val: raise`, so an
empty string is rejected exactly like a missing variable. -/
def env_required (getenv : String → Option String) (name : String) :
    Except String String :=
  match getenv name with
  | none => .error ("Missing required environment variable: " ++ name)
  | some v =>
    if v = "" then .error ("Missing required environment variable: " ++ name)
    else .ok v

/-- Function `env_optional` from `tools/self_heal.py`: `val if val else None`. -/
def env_optional (getenv : String → Option String) (name : String) :
    Option String :=
  match getenv name with
  | none => none
  | some v => if v = "" then none else some v

/-- The observable stage invocations of one `main()` run. -/
inductive Event
  | downloadLogs
  | collectLogs
  | builtinFixes
  | buildPrompt
  | callOpenAI
  | parsePatchesEv
  | applyPatchesEv
  | commitPush
deriving DecidableEq

/-- The environment of one `main()` run: the process environment and an
oracle for each effectful stage (network, file system, subprocess).
`buildPrompt` stands for the pure `build_prompt` applied to the logs (its
output also depends on the repository files it reads). -/
structure MainEnv where
  getenv : String → Option String
  download : Except String Unit
  collect : Except String String
  builtin : String → Except String Bool
  buildPrompt : String → String
  openai : String → Except String String
  applyP : List (String × String) → Except String Unit
  commitPush : Except String Unit

/-- Function `main()` from `tools/self_heal.py`: the stages it invokes, in order,
and its outcome (`.error` = an uncaught exception leaves `main`).  Patch
parsing uses the real embedded `parse_patches`. -/
def mainRun (env : MainEnv) : List Event × Except String Unit :=
  match env_required env.getenv ("GITHUB_REPOSITORY") with
  | .error e => ([], .error e)
  | .ok _ =>
  match env_required env.getenv ("GITHUB_RUN_ID") with
  | .error e => ([], .error e)
  | .ok _ =>
  match env_required env.getenv ("GITHUB_REF_NAME") with
  | .error e => ([], .error e)
  | .ok _ =>
  match env_optional env.getenv ("REPO_WRITE_TOKEN") with
  | none => ([], .ok ())
  | some _ =>
  match env.download with
  | .error e => ([.downloadLogs], .error e)
  | .ok _ =>
  match env.collect with
  | .error e => ([.downloadLogs, .collectLogs], .error e)
  | .ok logs =>
  match env.builtin logs with
  | .error e => ([.downloadLogs, .collectLogs, .builtinFixes], .error e)
  | .ok changed =>
  if changed then
    match env.commitPush with
    | .error e => ([.downloadLogs, .collectLogs, .builtinFixes, .commitPush], .error e)
    | .ok _ => ([.downloadLogs, .collectLogs, .builtinFixes, .commitPush], .ok ())
  else
  match env_optional env.getenv ("OPENAI_API_KEY") with
  | none => ([.downloadLogs, .collectLogs, .builtinFixes], .ok ())
  | some _ =>
  match env.openai (env.buildPrompt logs) with
  | .error e =>
    ([.downloadLogs, .collectLogs, .builtinFixes, .buildPrompt, .callOpenAI], .error e)
  | .ok response =>
  match parse_patches response with
  | .error e =>
    ([.downloadLogs, .collectLogs, .builtinFixes, .buildPrompt, .callOpenAI,
      .parsePatchesEv], .error e)
  | .ok patches =>
  if patches = [] then
    ([.downloadLogs, .collectLogs, .builtinFixes, .buildPrompt, .callOpenAI,
      .parsePatchesEv], .ok ())
  else
  match env.applyP patches with
  | .error e =>
    ([.downloadLogs, .collectLogs, .builtinFixes, .buildPrompt, .callOpenAI,
      .parsePatchesEv, .applyPatchesEv], .error e)
  | .ok _ =>
  match env.commitPush with
  | .error e =>
    ([.downloadLogs, .collectLogs, .builtinFixes, .buildPrompt, .callOpenAI,
      .parsePatchesEv, .applyPatchesEv, .commitPush], .error e)
  | .ok _ =>
    ([.downloadLogs, .collectLogs, .builtinFixes, .buildPrompt, .callOpenAI,
      .parsePatchesEv, .applyPatchesEv, .commitPush], .ok ())

/-- The observable outcome of the whole process. -/
structure ProcessOutcome where
  warnings : List String
  exitCode : Nat
deriving DecidableEq

/-- The `if __name__ == "__main__"` block: `try: main() except Exception
as exc: sys.stderr.write(...)`, then `sys.exit(0)` unconditionally. -/
def topLevel (env : MainEnv) : ProcessOutcome :=
  match mainRun env with
  | (_, .ok _) => { warnings := [], exitCode := 0 }
  | (_, .error e) => { warnings := ["[SELF_HEAL_WARN] " ++ e ++ "\n"], exitCode := 0 }

/-- An environment whose model call raises. -/
def c4Env : MainEnv :=
  { getenv := fun n =>
      if n = "OPENAI_API_KEY" then some ("sk-x")
      else if n = "REPO_WRITE_TOKEN" then some ("tok")
      else some ("val")
    download := .ok ()
    collect := .ok ("some logs")
    builtin := fun _ => .ok false
    buildPrompt := fun logs => logs
    openai := fun _ => .error ("OpenAI API failed (500): boom")
    applyP := fun _ => .ok ()
    commitPush := .ok () }

/-- An environment in which a deterministic fixer fires. -/
def c5Env : MainEnv :=
  { getenv := fun _ => some ("val")
    download := .ok ()
    collect := .ok ("Cannot convert value \"-1\" to type \"System.UInt32\"")
    builtin := fun _ => .ok true
    buildPrompt := fun logs => logs
    openai := fun _ => .ok ("FILE: a\n<<<END_FILE")
    applyP := fun _ => .ok ()
    commitPush := .ok () }

/-- An environment with an empty `REPO_WRITE_TOKEN`. -/
def c10EnvToken : MainEnv :=
  { getenv := fun n => if n = "REPO_WRITE_TOKEN" then some ("") else some ("v")
    download := .ok ()
    collect := .ok ("")
    builtin := fun _ => .ok false
    buildPrompt := fun logs => logs
    openai := fun _ => .ok ("")
    applyP := fun _ => .ok ()
    commitPush := .ok () }

/-- An environment with an empty `OPENAI_API_KEY` and no deterministic
fix. -/
def c10EnvKey : MainEnv :=
  { getenv := fun n => if n = "OPENAI_API_KEY" then some ("") else some ("v")
    download := .ok ()
    collect := .ok ("logs")
    builtin := fun _ => .ok false
    buildPrompt := fun logs => logs
    openai := fun _ => .ok ("")
    applyP := fun _ => .ok ()
    commitPush := .ok () }

/-! Theorems: the verified and refuted claims. -/

theorem replGo_skip (a b : List Char) : ∀ (s : List Char) (k : Nat),
    replGo a b s k = replGo a b (s.drop k) 0 := by
  intro s
  induction s with
  | nil => intro k; simp [replGo]
  | cons c rest ih =>
    intro k
    cases k with
    | zero => rfl
    | succ k => simp [replGo, ih k]

/-- The defining left-to-right equation of Python `str.replace`. -/
theorem pyReplace_cons (a b : List Char) (c : Char) (rest : List Char) :
    pyReplace a b (c :: rest) =
      if a ≠ [] ∧ a.isPrefixOf (c :: rest) then
        b ++ pyReplace a b ((c :: rest).drop a.length)
      else
        c :: pyReplace a b rest := by
  unfold pyReplace
  by_cases h : a ≠ [] ∧ a.isPrefixOf (c :: rest)
  · simp only [replGo, h, if_pos]
    rw [replGo_skip]
    have hl : a.length ≠ 0 := by
      intro h0
      exact h.1 (List.length_eq_zero.mp h0)
    congr 1
    cases ha : a.length with
    | zero => exact absurd ha hl
    | succ n => simp
  · simp only [replGo, h, if_neg, not_false_iff]

theorem pyReplace_nil (a b : List Char) : pyReplace a b [] = [] := rfl

theorem splitAtTerm_none_iff (ls : List String) :
    splitAtTerm ls = none ↔ ∀ l ∈ ls, pyStrip l ≠ "<<<END_FILE" := by
  induction ls with
  | nil => simp [splitAtTerm]
  | cons l rest ih =>
    by_cases ht : pyStrip l = "<<<END_FILE"
    · simp [splitAtTerm, ht]
    · simp only [splitAtTerm, ht, if_neg, not_false_iff]
      cases hs : splitAtTerm rest with
      | none =>
        simp only [List.mem_cons]
        constructor
        · intro _ x hx
          rcases hx with hx | hx
          · rw [hx]; exact ht
          · exact (ih.mp hs) x hx
        · intro _; trivial
      | some p =>
        obtain ⟨buf, r⟩ := p
        simp only [List.mem_cons]
        constructor
        · intro hc; exact absurd hc (by simp)
        · intro hall
          have : splitAtTerm rest = none := ih.mpr (fun x hx => hall x (Or.inr hx))
          rw [this] at hs
          exact absurd hs (by simp)

theorem splitAtTerm_decomp {ls buf r : List String}
    (h : splitAtTerm ls = some (buf, r)) :
    ∃ t, ls = buf ++ t :: r ∧ pyStrip t = "<<<END_FILE" ∧
      ∀ l ∈ buf, pyStrip l ≠ "<<<END_FILE" := by
  induction ls generalizing buf r with
  | nil => simp [splitAtTerm] at h
  | cons l rest ih =>
    by_cases ht : pyStrip l = "<<<END_FILE"
    · simp [splitAtTerm, ht] at h
      obtain ⟨hb, hr⟩ := h
      subst hb
      subst hr
      exact ⟨l, by simp, ht, by simp⟩
    · simp only [splitAtTerm, ht, if_neg, not_false_iff] at h
      cases hs : splitAtTerm rest with
      | none => rw [hs] at h; exact absurd h (by simp)
      | some p =>
        obtain ⟨buf', r'⟩ := p
        rw [hs] at h
        simp only [Option.some.injEq, Prod.mk.injEq] at h
        obtain ⟨hb, hr⟩ := h
        obtain ⟨t, hrest, htt, hbuf⟩ := ih hs
        refine ⟨t, ?_, htt, ?_⟩
        · rw [← hb, ← hr, hrest]; rfl
        · intro x hx
          rw [← hb] at hx
          rcases List.mem_cons.mp hx with hx | hx
          · rw [hx]; exact ht
          · exact hbuf x hx

/-- Indexing into the right part of an append. -/
theorem get_append_shift (pre ys : List String) (k : Nat) (hk : k < ys.length) :
    (pre ++ ys).get ⟨pre.length + k, by simp only [List.length_append]; omega⟩ =
      ys.get ⟨k, hk⟩ := by
  simp [List.get_eq_getElem, List.getElem_append_right (by omega : pre.length ≤ pre.length + k)]

/-- Indexing into the right part of an append, subtraction form. -/
theorem get_append_sub (pre ys : List String) (j : Nat)
    (h1 : pre.length ≤ j) (h2 : j < (pre ++ ys).length) :
    (pre ++ ys).get ⟨j, h2⟩ =
      ys.get ⟨j - pre.length, by simp only [List.length_append] at h2; omega⟩ := by
  simp [List.get_eq_getElem, List.getElem_append_right h1]

theorem wellTerminated_append_right {pre ys : List String}
    (h : wellTerminated (pre ++ ys)) : wellTerminated ys := by
  intro i hf
  have hk : pre.length + i.val < (pre ++ ys).length := by
    simp only [List.length_append]; omega
  have hget : (pre ++ ys).get ⟨pre.length + i.val, hk⟩ = ys.get i := by
    rw [get_append_shift pre ys i.val i.isLt]
  obtain ⟨j, hij, hterm⟩ := h ⟨pre.length + i.val, hk⟩ (by rw [hget]; exact hf)
  have hij2 : pre.length + i.val < j.val := hij
  have hjy : pre.length ≤ j.val := by omega
  have hjlt : j.val - pre.length < ys.length := by
    have hj := j.isLt
    simp only [List.length_append] at hj
    omega
  refine ⟨⟨j.val - pre.length, hjlt⟩, ?_, ?_⟩
  · show i.val < j.val - pre.length
    omega
  · rw [← get_append_sub pre ys j.val hjy j.isLt]
    exact hterm

theorem parseGo_wt : ∀ ls : List String,
    (wellTerminated ls → parseGo ls none = .ok (specBlocksGo ls none)) ∧
    (∀ p b, (∃ buf r, splitAtTerm ls = some (buf, r) ∧ wellTerminated r) →
      parseGo ls (some (p, b)) = .ok (specBlocksGo ls (some (p, b)))) := by
  intro ls
  induction ls with
  | nil =>
    refine ⟨fun _ => rfl, ?_⟩
    rintro p b ⟨buf, r, hsp, -⟩
    simp [splitAtTerm] at hsp
  | cons l rest ih =>
    constructor
    · intro hwt
      by_cases hf : pyStartsWith (pyStrip l) "FILE:" = true
      · obtain ⟨j, hj0, hterm⟩ := hwt ⟨0, by simp⟩ hf
        have hj1 : 0 < j.val := hj0
        have hjl : j.val < rest.length + 1 := by simpa using j.isLt
        have hjr : j.val - 1 < rest.length := by omega
        have hmem : ∃ x ∈ rest, pyStrip x = "<<<END_FILE" := by
          refine ⟨rest.get ⟨j.val - 1, hjr⟩, List.get_mem rest (j.val - 1) hjr, ?_⟩
          have hget : (l :: rest).get j = rest.get ⟨j.val - 1, hjr⟩ := by
            have := get_append_sub [l] rest j.val (by simpa using hj1) (by simpa using j.isLt)

            simpa using this
          rw [← hget]
          exact hterm
        cases hs : splitAtTerm rest with
        | none =>
          exfalso
          obtain ⟨x, hx, hxe⟩ := hmem
          exact (splitAtTerm_none_iff rest).mp hs x hx hxe
        | some pr =>
          obtain ⟨buf, r⟩ := pr
          obtain ⟨t, hre, htt, -⟩ := splitAtTerm_decomp hs
          have hlr : l :: rest = (l :: buf ++ [t]) ++ r := by rw [hre]; simp
          have hwr : wellTerminated r := wellTerminated_append_right (hlr ▸ hwt)
          simp only [parseGo, specBlocksGo, hf, if_pos]
          exact ih.2 _ _ ⟨buf, r, hs, hwr⟩
      · have hwr : wellTerminated rest := by
          have : l :: rest = [l] ++ rest := rfl
          exact wellTerminated_append_right (this ▸ hwt)
        simp only [parseGo, specBlocksGo, hf, if_neg, Bool.false_eq_true, not_false_iff]
        exact ih.1 hwr
    · rintro p b ⟨buf, r, hsp, hwr⟩
      by_cases ht : pyStrip l = "<<<END_FILE"
      · have hbr : buf = [] ∧ rest = r := by
          simpa [splitAtTerm, ht] using hsp
        obtain ⟨-, hr⟩ := hbr
        subst hr
        simp only [parseGo, specBlocksGo, ht, if_pos]
        rw [ih.1 hwr]
      · cases hs2 : splitAtTerm rest with
        | none =>
          exfalso
          simp only [splitAtTerm, ht, if_neg, not_false_iff, hs2] at hsp
          exact Option.noConfusion hsp
        | some pr2 =>
          obtain ⟨b2, r2⟩ := pr2
          have hbr : l :: b2 = buf ∧ r2 = r := by
            simpa [splitAtTerm, ht, hs2] using hsp
          obtain ⟨-, hr⟩ := hbr
          subst hr
          simp only [parseGo, specBlocksGo, ht, if_neg, not_false_iff]
          exact ih.2 p (b ++ [l]) ⟨b2, r2, hs2, hwr⟩

theorem head_dropWhile_not {α : Type} (p : α → Bool) :
    ∀ (l : List α) (a : α), (List.dropWhile p l).head? = some a → p a = false := by
  intro l
  induction l with
  | nil => intro a h; simp [List.dropWhile] at h
  | cons c t ih =>
    intro a h
    by_cases hc : p c
    · rw [List.dropWhile_cons_of_pos hc] at h
      exact ih a h
    · rw [List.dropWhile_cons_of_neg hc] at h
      simp at h
      rw [← h]
      exact Bool.not_eq_true _ ▸ (by simpa using hc)

theorem mkContent_endsOne (buf : List String) : endsExactlyOneNl (mkContent buf) := by
  refine ⟨rstripNl (joinNl buf), rfl, ?_⟩
  unfold rstripNl
  rw [List.getLast?_reverse]
  intro hc
  have := head_dropWhile_not _ _ _ hc
  simp at this

theorem specBlocksGo_content : ∀ (ls : List String) (st : Option (String × List String))
    (pr : String × String), pr ∈ specBlocksGo ls st → ∃ buf, pr.2 = mkContent buf := by
  intro ls
  induction ls with
  | nil => intro st pr h; simp [specBlocksGo] at h
  | cons l rest ih =>
    intro st pr h
    match st with
    | none =>
      by_cases hf : pyStartsWith (pyStrip l) "FILE:" = true
      · simp only [specBlocksGo, hf, if_pos] at h
        exact ih _ _ h
      · simp only [specBlocksGo, hf, if_neg, Bool.false_eq_true, not_false_iff] at h
        exact ih _ _ h
    | some pb =>
      obtain ⟨path, buf⟩ := pb
      by_cases ht : pyStrip l = "<<<END_FILE"
      · simp only [specBlocksGo, ht, if_pos] at h
        rcases List.mem_cons.mp h with h | h
        · exact ⟨buf, by rw [h]⟩
        · exact ih _ _ h
      · simp only [specBlocksGo, ht, if_neg, not_false_iff] at h
        exact ih _ _ h

/-- Claim C1.  For every model-response text in which every `FILE:`
block is well-terminated, `parse_patches` returns exactly one patch per
block, in document order, with the path taken from the text after `FILE:`
trimmed of surrounding whitespace and the content equal to the body lines
joined by newlines, right-trimmed of trailing newlines, with exactly one
newline appended; hence every returned content string ends in exactly one
trailing newline. -/
theorem c1_parse_patches_well_terminated (content : String)
    (h : wellTerminated (pyCleanedLines content)) :
    parse_patches content = .ok (specBlocks (pyCleanedLines content)) ∧
    ∀ pr ∈ specBlocks (pyCleanedLines content), endsExactlyOneNl pr.2 := by
  refine ⟨(parseGo_wt (pyCleanedLines content)).1 h, ?_⟩
  intro pr hpr
  obtain ⟨buf, hb⟩ := specBlocksGo_content _ _ _ hpr
  rw [hb]
  exact mkContent_endsOne buf

theorem c1_parse_patches_well_terminated_witness :
    wellTerminated (pyCleanedLines ("FILE: a.txt\nhello\n<<<END_FILE")) ∧
    (parse_patches ("FILE: a.txt\nhello\n<<<END_FILE") =
        .ok (specBlocks (pyCleanedLines ("FILE: a.txt\nhello\n<<<END_FILE"))) ∧
      ∀ pr ∈ specBlocks (pyCleanedLines ("FILE: a.txt\nhello\n<<<END_FILE")),
        endsExactlyOneNl pr.2) :=
  ⟨by decide, c1_parse_patches_well_terminated ("FILE: a.txt\nhello\n<<<END_FILE") (by decide)⟩

theorem parseGo_noTerm (p : String) : ∀ (ls : List String) (b : List String),
    splitAtTerm ls = none →
    parseGo ls (some (p, b)) = .error ("Missing terminator for file " ++ p) := by
  intro ls
  induction ls with
  | nil => intro b _; rfl
  | cons l rest ih =>
    intro b hsp
    have hl : pyStrip l ≠ "<<<END_FILE" :=
      (splitAtTerm_none_iff _).mp hsp l (by simp)
    have hrest : splitAtTerm rest = none := by
      apply (splitAtTerm_none_iff _).mpr
      intro x hx
      exact (splitAtTerm_none_iff _).mp hsp x (by simp [hx])
    simp only [parseGo, hl, if_neg, not_false_iff]
    exact ih _ hrest

theorem parseGo_split (p : String) : ∀ (ls : List String) (b buf r : List String),
    splitAtTerm ls = some (buf, r) →
    parseGo ls (some (p, b)) =
      (match parseGo r none with
       | .error e => .error e
       | .ok ps => .ok ((p, mkContent (b ++ buf)) :: ps)) := by
  intro ls
  induction ls with
  | nil => intro b buf r hsp; simp [splitAtTerm] at hsp
  | cons l rest ih =>
    intro b buf r hsp
    by_cases ht : pyStrip l = "<<<END_FILE"
    · have hbr : buf = [] ∧ rest = r := by simpa [splitAtTerm, ht] using hsp
      obtain ⟨hb, hr⟩ := hbr
      subst hb
      subst hr
      simp only [parseGo, ht, if_pos, List.append_nil]
    · cases hs2 : splitAtTerm rest with
      | none =>
        exfalso
        simp only [splitAtTerm, ht, if_neg, not_false_iff, hs2] at hsp
        exact Option.noConfusion hsp
      | some pr2 =>
        obtain ⟨b2, r2⟩ := pr2
        have hbr : l :: b2 = buf ∧ r2 = r := by
          simpa [splitAtTerm, ht, hs2] using hsp
        obtain ⟨hb, hr⟩ := hbr
        subst hr
        simp only [parseGo, ht, if_neg, not_false_iff]
        rw [ih (b ++ [l]) b2 r2 hs2, ← hb]
        simp

/-- Index the line after the buffered prefix and the terminator. -/
theorem get_pre_t_r (pre : List String) (t : String) (r : List String) (k : Nat)
    (hk : k < r.length) (H : pre.length + 1 + k < (pre ++ t :: r).length) :
    (pre ++ t :: r).get ⟨pre.length + 1 + k, H⟩ = r.get ⟨k, hk⟩ := by
  have h1 : pre.length ≤ pre.length + 1 + k := by omega
  rw [get_append_sub pre (t :: r) (pre.length + 1 + k) h1 H]
  have h2 : pre.length + 1 + k - pre.length = k + 1 := by omega
  simp only [List.get_eq_getElem, h2, List.getElem_cons_succ]

/-- Transfer an unterminated `FILE:` block across a consumed prefix and
terminator; also records how the witnessing line is retrieved. -/
theorem unterminated_shift_down (pre : List String) (t : String) (r : List String)
    (htt : pyStrip t = "<<<END_FILE")
    (h : hasUnterminated (pre ++ t :: r)) : hasUnterminated r := by
  obtain ⟨i, hfi, hnt⟩ := h
  have hlen : (pre ++ t :: r).length = pre.length + 1 + r.length := by simp; omega
  have htget : ∀ (H : pre.length < (pre ++ t :: r).length),
      (pre ++ t :: r).get ⟨pre.length, H⟩ = t := by
    intro H
    rw [get_append_sub pre (t :: r) pre.length (le_refl _) H]
    simp
  rcases lt_trichotomy i.val pre.length with hlt | heq | hgt
  · exfalso
    have Ht : pre.length < (pre ++ t :: r).length := by omega
    exact hnt ⟨pre.length, Ht⟩ hlt (by rw [htget Ht]; exact htt)
  · exfalso
    have hgi : (pre ++ t :: r).get i = t := by
      have : i = ⟨pre.length, by omega⟩ := Fin.ext heq
      rw [this]
      exact htget _
    unfold fileAt at hfi
    rw [hgi, htt] at hfi
    exact absurd hfi (by decide)
  · have hk : i.val - pre.length - 1 < r.length := by
      have h0 := i.isLt
      omega
    refine ⟨⟨i.val - pre.length - 1, hk⟩, ?_, ?_⟩
    · unfold fileAt
      have hI : pre.length + 1 + (i.val - pre.length - 1) = i.val := by omega
      have hg := get_pre_t_r pre t r (i.val - pre.length - 1) hk (by omega)
      rw [show (⟨pre.length + 1 + (i.val - pre.length - 1), by omega⟩ :
            Fin (pre ++ t :: r).length) = i from
          Fin.ext (show pre.length + 1 + (i.val - pre.length - 1) = i.val by omega)] at hg
      rw [← hg]
      exact hfi
    · intro j hj
      have hj2 : i.val - pre.length - 1 < j.val := hj
      have hJ : pre.length + 1 + j.val < (pre ++ t :: r).length := by
        have h0 := j.isLt
        omega
      have hg := get_pre_t_r pre t r j.val j.isLt hJ
      have hres := hnt ⟨pre.length + 1 + j.val, hJ⟩
        (show i.val < pre.length + 1 + j.val by omega)
      rw [hg] at hres
      exact hres

/-- Lift an unterminated `FILE:` block of a suffix back to the whole line
list (across a consumed prefix and terminator). -/
theorem unterminated_shift_up (pre : List String) (t : String) (r : List String)
    (i : Fin r.length) (hf : fileAt r i) (hn : noTermAfter r i) :
    ∃ I : Fin (pre ++ t :: r).length, fileAt (pre ++ t :: r) I ∧
      noTermAfter (pre ++ t :: r) I ∧ (pre ++ t :: r).get I = r.get i := by
  have hlen : (pre ++ t :: r).length = pre.length + 1 + r.length := by simp; omega
  have HI : pre.length + 1 + i.val < (pre ++ t :: r).length := by
    have h0 := i.isLt
    omega
  have hgI := get_pre_t_r pre t r i.val i.isLt HI
  refine ⟨⟨pre.length + 1 + i.val, HI⟩, ?_, ?_, ?_⟩
  · unfold fileAt
    rw [hgI]
    exact hf
  · intro j hj
    have hj2 : pre.length + 1 + i.val < j.val := hj
    have hjk : j.val - pre.length - 1 < r.length := by
      have h0 := j.isLt
      omega
    have hg := get_pre_t_r pre t r (j.val - pre.length - 1) hjk (by omega)
    rw [show (⟨pre.length + 1 + (j.val - pre.length - 1), by omega⟩ :
          Fin (pre ++ t :: r).length) = j from
        Fin.ext (show pre.length + 1 + (j.val - pre.length - 1) = j.val by omega)] at hg
    rw [hg]
    exact hn ⟨j.val - pre.length - 1, hjk⟩ (by show i.val < j.val - pre.length - 1; omega)
  · exact hgI

theorem unterminated_tail (l : String) (rest : List String)
    (hnf : pyStartsWith (pyStrip l) "FILE:" = false)
    (h : hasUnterminated (l :: rest)) : hasUnterminated rest := by
  obtain ⟨i, hfi, hnt⟩ := h
  have hne : i.val ≠ 0 := by
    intro h0
    have hg : (l :: rest).get i = l := by
      rw [show i = ⟨0, by simp⟩ from Fin.ext h0]
      rfl
    unfold fileAt at hfi
    rw [hg, hnf] at hfi
    exact Bool.noConfusion hfi
  have hlc : (l :: rest).length = rest.length + 1 := rfl
  have hk : i.val - 1 < rest.length := by
    have h0 := i.isLt
    omega
  refine ⟨⟨i.val - 1, hk⟩, ?_, ?_⟩
  · unfold fileAt
    have hg : (l :: rest).get i = rest.get ⟨i.val - 1, hk⟩ := by
      have := get_append_sub [l] rest i.val (show 1 ≤ i.val by omega) i.isLt
      simpa using this
    rw [← hg]
    exact hfi
  · intro j hj
    have hj2 : i.val - 1 < j.val := hj
    have hJ : j.val + 1 < (l :: rest).length := by
      have h0 := j.isLt
      omega
    have hg : (l :: rest).get ⟨j.val + 1, hJ⟩ = rest.get j := by
      simp [List.get_eq_getElem]
    have hres := hnt ⟨j.val + 1, hJ⟩ (show i.val < j.val + 1 by omega)
    rw [hg] at hres
    exact hres

theorem parseGo_error_unterminated : ∀ (n : Nat) (ls : List String), ls.length ≤ n →
    hasUnterminated ls →
    ∃ i : Fin ls.length, fileAt ls i ∧ noTermAfter ls i ∧
      parseGo ls none =
        .error ("Missing terminator for file " ++ pyStrip (pyDrop (pyStrip (ls.get i)) 5)) := by
  intro n
  induction n with
  | zero =>
    intro ls hlen h
    cases ls with
    | nil =>
      obtain ⟨i, -, -⟩ := h
      exact absurd i.isLt (by simp)
    | cons l rest => simp at hlen
  | succ n ih =>
    intro ls hlen h
    cases ls with
    | nil =>
      obtain ⟨i, -, -⟩ := h
      exact absurd i.isLt (by simp)
    | cons l rest =>
      by_cases hf : pyStartsWith (pyStrip l) "FILE:" = true
      · cases hs : splitAtTerm rest with
        | none =>
          refine ⟨⟨0, by simp⟩, hf, ?_, ?_⟩
          · intro j hj
            have hj0 : 0 < j.val := hj
            have hlc : (l :: rest).length = rest.length + 1 := rfl
            have hk : j.val - 1 < rest.length := by
              have h0 := j.isLt
              omega
            have hg : (l :: rest).get j = rest.get ⟨j.val - 1, hk⟩ := by
              have := get_append_sub [l] rest j.val (show 1 ≤ j.val by omega) j.isLt
              simpa using this
            rw [hg]
            exact (splitAtTerm_none_iff rest).mp hs _ (List.get_mem rest (j.val - 1) hk)
          · have hstep : parseGo (l :: rest) none =
                parseGo rest (some (pyStrip (pyDrop (pyStrip l) 5), [])) := by
              simp only [parseGo, hf, if_pos]
            rw [hstep]
            exact parseGo_noTerm _ rest [] hs
        | some pr =>
          obtain ⟨buf, r⟩ := pr
          obtain ⟨t, hre, htt, -⟩ := splitAtTerm_decomp hs
          subst hre
          have hur : hasUnterminated r :=
            unterminated_shift_down (l :: buf) t r htt h
          have hrlen : r.length ≤ n := by
            simp at hlen
            omega
          obtain ⟨i2, hfi2, hnt2, herr2⟩ := ih r hrlen hur
          obtain ⟨I, hFI, hNT, hGET⟩ := unterminated_shift_up (l :: buf) t r i2 hfi2 hnt2
          have hGET2 : (l :: (buf ++ t :: r)).get I = r.get i2 := hGET
          refine ⟨I, hFI, hNT, ?_⟩
          have hstep : parseGo (l :: (buf ++ t :: r)) none =
              parseGo (buf ++ t :: r) (some (pyStrip (pyDrop (pyStrip l) 5), [])) := by
            simp only [parseGo, hf, if_pos]
          rw [hstep, parseGo_split _ _ [] buf r hs, herr2, hGET2]
      · have hnf : pyStartsWith (pyStrip l) "FILE:" = false := by
          simpa using hf
        have hur : hasUnterminated rest := unterminated_tail l rest hnf h
        have hrlen : rest.length ≤ n := by
          simp at hlen
          omega
        obtain ⟨i2, hfi2, hnt2, herr2⟩ := ih rest hrlen hur
        obtain ⟨I, hFI, hNT, hGET⟩ := unterminated_shift_up [] l rest i2 hfi2 hnt2
        have hGET2 : (l :: rest).get I = rest.get i2 := hGET
        refine ⟨I, hFI, hNT, ?_⟩
        have hstep : parseGo (l :: rest) none = parseGo rest none := by
          simp only [parseGo, hf, if_neg, Bool.false_eq_true, not_false_iff]
        rw [hstep, herr2, hGET2]

/-- Claim C3.  A response containing a `FILE:` block whose terminator
never appears causes `parse_patches` to raise an error naming the
offending path, and the call produces zero patches (no `.ok` result). -/
theorem c3_parse_patches_unterminated (content : String)
    (h : hasUnterminated (pyCleanedLines content)) :
    (∃ i : Fin (pyCleanedLines content).length,
      fileAt (pyCleanedLines content) i ∧ noTermAfter (pyCleanedLines content) i ∧
      parse_patches content = .error ("Missing terminator for file " ++
        pyStrip (pyDrop (pyStrip ((pyCleanedLines content).get i)) 5))) ∧
    ∀ ps, parse_patches content ≠ .ok ps := by
  obtain ⟨i, hfi, hnt, herr⟩ :=
    parseGo_error_unterminated (pyCleanedLines content).length (pyCleanedLines content)
      (le_refl _) h
  refine ⟨⟨i, hfi, hnt, herr⟩, ?_⟩
  intro ps hps
  rw [show parse_patches content = parseGo (pyCleanedLines content) none from rfl, herr] at hps
  exact Except.noConfusion hps

theorem c3_parse_patches_unterminated_witness :
    hasUnterminated (pyCleanedLines ("FILE: b.txt\nhello")) ∧
    ((∃ i : Fin (pyCleanedLines ("FILE: b.txt\nhello")).length,
      fileAt (pyCleanedLines ("FILE: b.txt\nhello")) i ∧
      noTermAfter (pyCleanedLines ("FILE: b.txt\nhello")) i ∧
      parse_patches ("FILE: b.txt\nhello") = .error ("Missing terminator for file " ++
        pyStrip (pyDrop (pyStrip ((pyCleanedLines ("FILE: b.txt\nhello")).get i)) 5))) ∧
    ∀ ps, parse_patches ("FILE: b.txt\nhello") ≠ .ok ps) :=
  ⟨by decide, c3_parse_patches_unterminated ("FILE: b.txt\nhello") (by decide)⟩

theorem mem_pathParents : ∀ (t x : List String), x ∈ pathParents t ↔ (x <+: t ∧ x ≠ t) := by
  intro t
  induction t with
  | nil =>
    intro x
    simp [pathParents, List.inits]
  | cons c t ih =>
    intro x
    unfold pathParents
    rw [List.inits_cons]
    have hne : (List.inits t).map (c :: ·) ≠ [] := by
      intro hc
      have hlen := congrArg List.length hc
      simp [List.length_inits] at hlen
    rw [List.dropLast_cons_of_ne_nil hne, List.mem_cons]
    constructor
    · rintro (hx | hx)
      · subst hx
        exact ⟨⟨c :: t, rfl⟩, by simp⟩
      · rw [← List.map_dropLast] at hx
        obtain ⟨y, hy, hxy⟩ := List.mem_map.mp hx
        have := (ih y).mp hy
        subst hxy
        exact ⟨List.cons_prefix_cons.mpr ⟨rfl, this.1⟩, by simp [this.2]⟩
    · rintro ⟨hpre, hne2⟩
      cases x with
      | nil => exact Or.inl rfl
      | cons a x =>
        obtain ⟨rfl, hx⟩ := List.cons_prefix_cons.mp hpre
        refine Or.inr ?_
        rw [← List.map_dropLast]
        refine List.mem_map.mpr ⟨x, (ih x).mpr ⟨hx, ?_⟩, rfl⟩
        intro hc
        exact hne2 (by rw [hc])

theorem contains_pathParents (t root : List String) :
    (pathParents t).contains root = true ↔ (root <+: t ∧ root ≠ t) := by
  rw [List.elem_iff]
  exact mem_pathParents t root

theorem apply_patches_cons (root : List String) (relPath content : String)
    (rest : List (String × String)) :
    apply_patches root ((relPath, content) :: rest) =
      if ¬ (pathParents (resolvePath root relPath)).contains root ∧
          resolvePath root relPath ≠ root then
        apply_patches root rest
      else
        (resolvePath root relPath, content) :: apply_patches root rest := rfl

theorem apply_patches_fallible_cons (root : List String) (failing : List String → Bool)
    (relPath content : String) (rest : List (String × String)) :
    apply_patches_fallible root failing ((relPath, content) :: rest) =
      if ¬ (pathParents (resolvePath root relPath)).contains root ∧
          resolvePath root relPath ≠ root then
        apply_patches_fallible root failing rest
      else if failing (resolvePath root relPath) then
        ([], false)
      else
        ((resolvePath root relPath, content) :: (apply_patches_fallible root failing rest).1,
          (apply_patches_fallible root failing rest).2) := rfl

/-- Claim C2, counterexample.  The claim says every patch whose
resolved path is not a strict descendant of the repository root is skipped
and never written.  The patch path `"."` resolves to the repository root
itself — not a strict descendant — yet the code's guard
(`... and target != REPO_ROOT`) lets it through and the write is
attempted. -/
theorem c2_counterexample :
    resolvePath ["repo"] "." = ["repo"] ∧
    ¬ (["repo"] <+: resolvePath ["repo"] "." ∧ resolvePath ["repo"] "." ≠ ["repo"]) ∧
    apply_patches ["repo"] [(".", "x")] = [(["repo"], "x")] := by
  decide

/-- Claim C2, amended.  `apply_patches` writes exactly the patches
whose resolved target is a strict descendant of the repository root *or
the root itself*, in order, skipping all others; consequently every
performed write has the repository root as a prefix of its target (no
write lands strictly outside the root). -/
theorem c2_apply_patches_boundary (root : List String) (patches : List (String × String)) :
    apply_patches root patches = patches.filterMap (acceptedWrite root) ∧
    ∀ w ∈ apply_patches root patches, root <+: w.1 := by
  constructor
  · induction patches with
    | nil => rfl
    | cons p rest ih =>
      obtain ⟨relPath, content⟩ := p
      rw [apply_patches_cons, List.filterMap_cons]
      by_cases hg : ¬ (pathParents (resolvePath root relPath)).contains root = true ∧
          resolvePath root relPath ≠ root
      · have hacc : acceptedWrite root (relPath, content) = none := by
          unfold acceptedWrite
          rw [if_neg]
          intro hc
          rcases hc with hc | hc
          · exact hg.1 ((contains_pathParents _ _).mpr ⟨hc.1, fun he => hc.2 he.symm⟩)
          · exact hg.2 hc
        rw [if_pos hg, hacc]
        exact ih
      · have hacc : acceptedWrite root (relPath, content) =
            some (resolvePath root relPath, content) := by
          unfold acceptedWrite
          rw [if_pos]
          rcases not_and_or.mp hg with hc | hc
          · have hsp := (contains_pathParents (resolvePath root relPath) root).mp
              (by simpa using hc)
            exact Or.inl ⟨hsp.1, fun he => hsp.2 he.symm⟩
          · exact Or.inr (by simpa using hc)
        rw [if_neg hg, hacc, ih]
  · intro w hw
    induction patches with
    | nil => simp [apply_patches] at hw
    | cons p rest ih =>
      obtain ⟨relPath, content⟩ := p
      rw [apply_patches_cons] at hw
      by_cases hg : ¬ (pathParents (resolvePath root relPath)).contains root = true ∧
          resolvePath root relPath ≠ root
      · rw [if_pos hg] at hw
        exact ih hw
      · rw [if_neg hg] at hw
        rcases List.mem_cons.mp hw with hw | hw
        · subst hw
          rcases not_and_or.mp hg with hc | hc
          · have hsp := (contains_pathParents (resolvePath root relPath) root).mp
              (by simpa using hc)
            exact hsp.1
          · have heq : resolvePath root relPath = root := by simpa using hc
            rw [heq]
        · exact ih hw

/-- Claim C7, counterexample.  The claim says a failed write must not
prevent attempting the remaining patches.  But the loop body of
`apply_patches` has no exception handler: if the first accepted write
raises, the second patch — accepted, and whose own write would succeed —
is never attempted. -/
theorem c7_counterexample :
    apply_patches_fallible ["repo"] (fun t => t == ["repo", "a"]) [("a", "x"), ("b", "y")]
      = ([], false) ∧
    acceptedWrite ["repo"] ("b", "y") = some (["repo", "b"], "y") ∧
    (fun t : List String => t == ["repo", "a"]) ["repo", "b"] = false := by
  decide

/-- Claim C7, amended.  Writes are *not* independent per patch: a
write failure aborts `apply_patches` immediately (the exception propagates
out of the `for` loop and the remaining patches are not attempted); only
when no accepted write fails are all accepted patches written. -/
theorem c7_apply_patches_abort (root : List String) (failing : List String → Bool) :
    (∀ patches : List (String × String),
      (∀ p ∈ patches, failing (resolvePath root p.1) = false) →
      apply_patches_fallible root failing patches = (apply_patches root patches, true)) ∧
    (∀ (p : String × String) (rest : List (String × String)),
      ((pathParents (resolvePath root p.1)).contains root ∨ resolvePath root p.1 = root) →
      failing (resolvePath root p.1) = true →
      apply_patches_fallible root failing (p :: rest) = ([], false)) := by
  constructor
  · intro patches
    induction patches with
    | nil => intro _; rfl
    | cons p rest ih =>
      intro hok
      obtain ⟨relPath, content⟩ := p
      have hfp : failing (resolvePath root relPath) = false :=
        hok (relPath, content) (List.mem_cons_self _ _)
      have hrest : ∀ q ∈ rest, failing (resolvePath root q.1) = false :=
        fun q hq => hok q (List.mem_cons_of_mem _ hq)
      rw [apply_patches_fallible_cons, apply_patches_cons]
      by_cases hg : ¬ (pathParents (resolvePath root relPath)).contains root = true ∧
          resolvePath root relPath ≠ root
      · rw [if_pos hg, if_pos hg]
        exact ih hrest
      · rw [if_neg hg, if_neg hg, hfp, ih hrest]
        rw [if_neg (by simp)]
  · intro p rest hacc hfail
    obtain ⟨relPath, content⟩ := p
    have hg : ¬ (¬ (pathParents (resolvePath root relPath)).contains root = true ∧
        resolvePath root relPath ≠ root) := by
      rcases hacc with hc | hc
      · intro hx
        exact hx.1 hc
      · intro hx
        exact hx.2 hc
    rw [apply_patches_fallible_cons, if_neg hg, if_pos hfail]

theorem c7_apply_patches_abort_witness :
    ((∀ p ∈ [(("b" : String), ("y" : String))],
        (fun t : List String => t == ["repo", "a"]) (resolvePath ["repo"] p.1) = false) ∧
      apply_patches_fallible ["repo"] (fun t => t == ["repo", "a"]) [("b", "y")] =
        (apply_patches ["repo"] [("b", "y")], true)) ∧
    (((pathParents (resolvePath ["repo"] "a")).contains ["repo"] ∨
        resolvePath ["repo"] "a" = ["repo"]) ∧
      apply_patches_fallible ["repo"] (fun t => t == ["repo", "a"]) [("a", "x"), ("b", "y")] =
        ([], false)) :=
  ⟨⟨by decide,
      (c7_apply_patches_abort ["repo"] (fun t => t == ["repo", "a"])).1 [("b", "y")] (by decide)⟩,
    ⟨by decide,
      (c7_apply_patches_abort ["repo"] (fun t => t == ["repo", "a"])).2 ("a", "x") [("b", "y")]
        (by decide) (by decide)⟩⟩

theorem c2_apply_patches_boundary_witness :
    apply_patches ["repo"] [("../evil.txt", "v"), (".", "y"), ("ok.txt", "z")] =
      [("../evil.txt", "v"), (".", "y"), ("ok.txt", "z")].filterMap (acceptedWrite ["repo"]) ∧
    ∀ w ∈ apply_patches ["repo"] [("../evil.txt", "v"), (".", "y"), ("ok.txt", "z")],
      ["repo"] <+: w.1 :=
  c2_apply_patches_boundary ["repo"] [("../evil.txt", "v"), (".", "y"), ("ok.txt", "z")]

theorem stripCI_cons (p : Char) (ps : List Char) (c : Char) (cs : List Char) :
    stripCI (p :: ps) (c :: cs) =
      if lowerChar p = lowerChar c then stripCI ps cs else none := rfl

theorem stripCI_suffix : ∀ (p cs r : List Char), stripCI p cs = some r → r <:+ cs := by
  intro p
  induction p with
  | nil =>
    intro cs r h
    simp [stripCI] at h
    subst h
    exact List.suffix_refl cs
  | cons p ps ih =>
    intro cs r h
    cases cs with
    | nil => simp [stripCI] at h
    | cons c cs' =>
      rw [stripCI_cons] at h
      by_cases hc : lowerChar p = lowerChar c
      · rw [if_pos hc] at h
        exact (ih cs' r h).trans (List.suffix_cons c cs')
      · rw [if_neg hc] at h
        exact Option.noConfusion h

theorem stripCI_length : ∀ (p cs r : List Char), stripCI p cs = some r →
    p.length + r.length = cs.length := by
  intro p
  induction p with
  | nil =>
    intro cs r h
    simp [stripCI] at h
    subst h
    simp
  | cons p ps ih =>
    intro cs r h
    cases cs with
    | nil => simp [stripCI] at h
    | cons c cs' =>
      rw [stripCI_cons] at h
      by_cases hc : lowerChar p = lowerChar c
      · rw [if_pos hc] at h
        have := ih cs' r h
        simp
        omega
      · rw [if_neg hc] at h
        exact Option.noConfusion h

theorem matchPat_parts {cs after : List Char} (h : matchPat cs = some after) :
    ∃ cs1, stripCI pat1 cs = some cs1 ∧
      stripCI pat2 (cs1.dropWhile isPySpace) = some after := by
  unfold matchPat at h
  cases hs : stripCI pat1 cs with
  | none => rw [hs] at h; exact Option.noConfusion h
  | some cs1 =>
    rw [hs] at h
    exact ⟨cs1, rfl, h⟩

theorem matchPat_suffix_bound {c : Char} {rest after : List Char}
    (h : matchPat (c :: rest) = some after) :
    after <:+ rest ∧ after.length + 7 ≤ rest.length := by
  obtain ⟨cs1, h1, h2⟩ := matchPat_parts h
  have hsf1 : cs1 <:+ c :: rest := stripCI_suffix _ _ _ h1
  have hlen1 : pat1.length + cs1.length = (c :: rest).length := stripCI_length _ _ _ h1
  have hsfd : cs1.dropWhile isPySpace <:+ cs1 := List.dropWhile_suffix _
  have hsf2 : after <:+ cs1.dropWhile isPySpace := stripCI_suffix _ _ _ h2
  have hlen2 : pat2.length + after.length = (cs1.dropWhile isPySpace).length :=
    stripCI_length _ _ _ h2
  have hlend : (cs1.dropWhile isPySpace).length ≤ cs1.length := hsfd.length_le
  have hsuf : after <:+ c :: rest := (hsf2.trans hsfd).trans hsf1
  have hbound : after.length + 7 ≤ rest.length := by
    simp [pat1, tail1, pat2] at hlen1 hlen2
    simp at *
    omega
  refine ⟨?_, hbound⟩
  obtain ⟨t, ht⟩ := hsuf
  cases t with
  | nil =>
    exfalso
    have : after.length = rest.length + 1 := by
      have := congrArg List.length ht
      simpa using this
    omega
  | cons t0 ts =>
    have : ts ++ after = rest := by
      have := ht
      simp at this
      exact this.2
    exact ⟨ts, this⟩

theorem subGo_skip : ∀ (s : List Char) (k : Nat), subGo s k = subGo (s.drop k) 0 := by
  intro s
  induction s with
  | nil => intro k; simp [subGo]
  | cons c rest ih =>
    intro k
    cases k with
    | zero => rfl
    | succ k => simp [subGo, ih k]

/-- The defining equation of `re.sub`'s scan. -/
theorem subAll_cons (c : Char) (rest : List Char) :
    subAll (c :: rest) =
      (match matchPat (c :: rest) with
       | some after => uintRepl ++ subAll after
       | none => c :: subAll rest) := by
  show subGo (c :: rest) 0 = _
  cases hm : matchPat (c :: rest) with
  | none =>
    simp [subGo, hm]
    rfl
  | some after =>
    simp only [subGo, hm]
    rw [subGo_skip]
    obtain ⟨hsuf, hbd⟩ := matchPat_suffix_bound hm
    have hdrop : rest.drop ((c :: rest).length - after.length - 1) = after := by
      obtain ⟨t, ht⟩ := hsuf
      have hlt : t.length = rest.length - after.length := by
        have := congrArg List.length ht
        simp at this
        omega
      have hidx : (c :: rest).length - after.length - 1 = t.length := by
        simp
        omega
      rw [hidx, ← ht, List.drop_left]
    rw [hdrop]
    rfl

theorem pat2_nolb : ∀ c ∈ pat2, lowerChar c ≠ '[' := by decide

theorem tail1_nolb : ∀ c ∈ tail1, lowerChar c ≠ '[' := by decide

theorem replTail_nolb : ∀ c ∈ replTail, lowerChar c ≠ '[' := by decide

theorem lowerChar_open : lowerChar '[' = '[' := by decide

theorem dropWhile_open (Z : List Char) : ('[' :: Z).dropWhile isPySpace = '[' :: Z := rfl

theorem stripCI_pat2_open (Z : List Char) : stripCI pat2 ('[' :: Z) = none := rfl

theorem stripCI_pat2_cons (c : Char) (Z : List Char) :
    stripCI pat2 (c :: Z) =
      if lowerChar '0' = lowerChar c then stripCI pat2tail Z else none := rfl

theorem matchPat_replHead (Y : List Char) : matchPat ('[' :: (replTail ++ Y)) = none := rfl

theorem subAll_cons_of_none {c : Char} {rest : List Char}
    (h : matchPat (c :: rest) = none) : subAll (c :: rest) = c :: subAll rest := by
  rw [subAll_cons, h]

theorem subAll_cons_of_some {c : Char} {after rest : List Char}
    (h : matchPat (c :: rest) = some after) :
    subAll (c :: rest) = uintRepl ++ subAll after := by
  rw [subAll_cons, h]

theorem matchPat_cons_eq (c : Char) (l : List Char) :
    matchPat (c :: l) =
      if lowerChar '[' = lowerChar c then matchTail tail1 l else none := by
  by_cases h : lowerChar '[' = lowerChar c
  · rw [if_pos h]
    unfold matchPat matchTail
    have hs : stripCI pat1 (c :: l) = stripCI tail1 l := by
      show (if lowerChar '[' = lowerChar c then stripCI tail1 l else none) = stripCI tail1 l
      rw [if_pos h]
    rw [hs]
  · rw [if_neg h]
    unfold matchPat
    have hs : stripCI pat1 (c :: l) = none := by
      show (if lowerChar '[' = lowerChar c then stripCI tail1 l else none) = none
      rw [if_neg h]
    rw [hs]

theorem matchPat_cons_none {c : Char} (l : List Char) (h : lowerChar c ≠ '[') :
    matchPat (c :: l) = none := by
  rw [matchPat_cons_eq, if_neg]
  intro hc
  exact h (hc.symm.trans lowerChar_open)

theorem subAll_append_nolb : ∀ (xs Y : List Char), (∀ c ∈ xs, lowerChar c ≠ '[') →
    subAll (xs ++ Y) = xs ++ subAll Y := by
  intro xs
  induction xs with
  | nil => intro Y _; simp
  | cons x xs ih =>
    intro Y hall
    have hx : lowerChar x ≠ '[' := hall x (by simp)
    rw [List.cons_append, subAll_cons_of_none (matchPat_cons_none _ hx), ih Y
      (fun c hc => hall c (by simp [hc]))]
    rfl

theorem stripCI_sub_stable : ∀ (X q : List Char), q ≠ [] → q <:+ pat2 →
    stripCI q X = none → stripCI q (subAll X) = none := by
  intro X
  induction X with
  | nil => intro q _ _ h; exact h
  | cons x X' ih =>
    intro q hq hsuf h
    cases q with
    | nil => exact absurd rfl hq
    | cons h0 q' =>
      cases hm : matchPat (x :: X') with
      | some after =>
        rw [subAll_cons_of_some hm]
        have hmem : h0 ∈ pat2 := hsuf.subset (by simp)
        have hno : lowerChar h0 ≠ '[' := pat2_nolb h0 hmem
        show stripCI (h0 :: q') ('[' :: (replTail ++ subAll after)) = none
        rw [stripCI_cons, if_neg]
        intro hc
        exact hno (hc.trans lowerChar_open)
      | none =>
        rw [subAll_cons_of_none hm]
        rw [stripCI_cons] at h ⊢
        by_cases hc : lowerChar h0 = lowerChar x
        · rw [if_pos hc] at h ⊢
          cases q' with
          | nil => simp [stripCI] at h
          | cons q1 q'' =>
            have hq' : (q1 :: q'') <:+ pat2 := (List.suffix_cons h0 _).trans hsuf
            exact ih (q1 :: q'') (by simp) hq' h
        · rw [if_neg hc]

theorem ws_stage_stable : ∀ (X : List Char),
    stripCI pat2 (X.dropWhile isPySpace) = none →
    stripCI pat2 ((subAll X).dropWhile isPySpace) = none := by
  intro X
  induction X with
  | nil => intro h; exact h
  | cons x X' ih =>
    intro h
    cases hm : matchPat (x :: X') with
    | some after =>
      rw [subAll_cons_of_some hm]
      show stripCI pat2 (('[' :: (replTail ++ subAll after)).dropWhile isPySpace) = none
      rw [dropWhile_open, stripCI_pat2_open]
    | none =>
      rw [subAll_cons_of_none hm]
      by_cases hx : isPySpace x = true
      · rw [List.dropWhile_cons_of_pos hx] at h ⊢
        exact ih h
      · rw [List.dropWhile_cons_of_neg hx] at h ⊢
        rw [stripCI_pat2_cons] at h ⊢
        by_cases hc : lowerChar '0' = lowerChar x
        · rw [if_pos hc] at h ⊢
          exact stripCI_sub_stable X' pat2tail (by decide)
            ⟨['0'], rfl⟩ h
        · rw [if_neg hc]

theorem matchTail_stable : ∀ (X q : List Char), q ≠ [] → q <:+ tail1 →
    matchTail q X = none → matchTail q (subAll X) = none := by
  intro X
  induction X with
  | nil => intro q _ _ h; exact h
  | cons x X' ih =>
    intro q hq hsuf h
    cases q with
    | nil => exact absurd rfl hq
    | cons h0 q' =>
      cases hm : matchPat (x :: X') with
      | some after =>
        rw [subAll_cons_of_some hm]
        have hmem : h0 ∈ tail1 := hsuf.subset (by simp)
        have hno : lowerChar h0 ≠ '[' := tail1_nolb h0 hmem
        show matchTail (h0 :: q') ('[' :: (replTail ++ subAll after)) = none
        unfold matchTail
        rw [stripCI_cons, if_neg]
        intro hc
        exact hno (hc.trans lowerChar_open)
      | none =>
        rw [subAll_cons_of_none hm]
        unfold matchTail at h ⊢
        rw [stripCI_cons] at h ⊢
        by_cases hc : lowerChar h0 = lowerChar x
        · rw [if_pos hc] at h ⊢
          cases q' with
          | nil =>
            simp only [stripCI] at h ⊢
            exact ws_stage_stable X' h
          | cons q1 q'' =>
            have hq' : (q1 :: q'') <:+ tail1 := (List.suffix_cons h0 _).trans hsuf
            exact ih (q1 :: q'') (by simp) hq' h
        · rw [if_neg hc]

theorem matchPat_stable (c : Char) (X : List Char) (h : matchPat (c :: X) = none) :
    matchPat (c :: subAll X) = none := by
  rw [matchPat_cons_eq] at h ⊢
  by_cases hc : lowerChar '[' = lowerChar c
  · rw [if_pos hc] at h ⊢
    exact matchTail_stable X tail1 (by decide) (List.suffix_refl _) h
  · rw [if_neg hc]

theorem subAll_repl (Y : List Char) : subAll (uintRepl ++ Y) = uintRepl ++ subAll Y := by
  have h1 : matchPat ('[' :: (replTail ++ Y)) = none := matchPat_replHead Y
  show subAll ('[' :: (replTail ++ Y)) = '[' :: (replTail ++ subAll Y)
  rw [subAll_cons_of_none h1, subAll_append_nolb replTail Y replTail_nolb]

theorem subAll_idem_aux : ∀ (n : Nat) (X : List Char), X.length ≤ n →
    subAll (subAll X) = subAll X := by
  intro n
  induction n with
  | zero =>
    intro X hlen
    cases X with
    | nil => rfl
    | cons c rest => simp at hlen
  | succ n ih =>
    intro X hlen
    cases X with
    | nil => rfl
    | cons c rest =>
      cases hm : matchPat (c :: rest) with
      | some after =>
        rw [subAll_cons_of_some hm, subAll_repl]
        have hb := (matchPat_suffix_bound hm).2
        have hlc : (c :: rest).length = rest.length + 1 := rfl
        rw [ih after (by omega)]
      | none =>
        have hlc : (c :: rest).length = rest.length + 1 := rfl
        rw [subAll_cons_of_none hm,
          subAll_cons_of_none (matchPat_stable c rest hm), ih rest (by omega)]

/-- Python `re.sub` with this fixer's pattern and replacement is idempotent. -/
theorem subAll_idem (X : List Char) : subAll (subAll X) = subAll X :=
  subAll_idem_aux X.length X (le_refl _)

theorem occursB_eq_true_iff : ∀ (a s : List Char), occursB a s = true ↔ a <:+: s := by
  intro a s
  induction s with
  | nil =>
    simp [occursB, List.infix_nil, List.isEmpty_iff]
  | cons c s ih =>
    simp only [occursB, Bool.or_eq_true, ih, List.isPrefixOf_iff_prefix,
      List.infix_cons_iff]

theorem pyReplace_contains_of_ne (a b : List Char) : ∀ (s : List Char),
    pyReplace a b s ≠ s → b <:+: pyReplace a b s := by
  intro s
  induction s with
  | nil => intro h; exact absurd rfl h
  | cons c rest ih =>
    rw [pyReplace_cons]
    by_cases h : a ≠ [] ∧ a.isPrefixOf (c :: rest)
    · rw [if_pos h]
      intro _
      exact List.IsPrefix.isInfix (List.prefix_append b _)
    · rw [if_neg h]
      intro hne
      have hr : pyReplace a b rest ≠ rest := by
        intro he
        exact hne (by rw [he])
      exact (ih hr).trans (List.IsSuffix.isInfix (List.suffix_cons c _))

theorem joinAll_contains_of_mem : ∀ (ls : List (List Char)) (x : List Char),
    x ∈ ls → x <:+: joinAll ls := by
  intro ls
  induction ls with
  | nil => intro x h; simp at h
  | cons l rest ih =>
    intro x h
    rcases List.mem_cons.mp h with h | h
    · subst h
      exact List.IsPrefix.isInfix (List.prefix_append x (joinAll rest))
    · exact (ih x h).trans (List.IsSuffix.isInfix (List.suffix_append l (joinAll rest)))

theorem splitKE_ne_nil (c : Char) (rest : List Char) : splitKE (c :: rest) ≠ [] := by
  unfold splitKE
  by_cases h : c = '\n'
  · rw [if_pos h]
    simp
  · rw [if_neg h]
    cases splitKE rest with
    | nil => simp
    | cons l ls => simp

theorem joinAll_splitKE : ∀ (t : List Char), joinAll (splitKE t) = t := by
  intro t
  induction t with
  | nil => rfl
  | cons c rest ih =>
    unfold splitKE
    by_cases h : c = '\n'
    · rw [if_pos h]
      subst h
      show '\n' :: joinAll (splitKE rest) = _
      rw [ih]
    · rw [if_neg h]
      cases hs : splitKE rest with
      | nil =>
        cases rest with
        | nil => rfl
        | cons d rest' => exact absurd hs (splitKE_ne_nil d rest')
      | cons l ls =>
        show (c :: l) ++ joinAll ls = c :: rest
        have : joinAll (splitKE rest) = rest := ih
        rw [hs] at this
        show c :: (l ++ joinAll ls) = c :: rest
        rw [show l ++ joinAll ls = joinAll (l :: ls) from rfl, this]

theorem insGo_true_id : ∀ (ls : List (List Char)) (inT : Bool),
    insGo ls inT true = ls := by
  intro ls
  induction ls with
  | nil => intro inT; rfl
  | cons line rest ih =>
    intro inT
    unfold insGo
    by_cases h1 : pyStripC line = marker3
    · rw [if_pos h1, ih]
    · rw [if_neg h1, if_neg (by simp), ih]

theorem insGo_changed_mem : ∀ (ls : List (List Char)) (inT : Bool),
    insGo ls inT false ≠ ls → iLine2 ∈ insGo ls inT false := by
  intro ls
  induction ls with
  | nil => intro inT h; exact absurd rfl h
  | cons line rest ih =>
    intro inT h
    unfold insGo at h ⊢
    by_cases h1 : pyStripC line = marker3
    · rw [if_pos h1] at h ⊢
      have : insGo rest true false ≠ rest := by
        intro he
        exact h (by rw [he])
      exact List.mem_cons_of_mem _ (ih true this)
    · rw [if_neg h1] at h ⊢
      by_cases h2 : inT = true ∧ (false : Bool) = false ∧
          "param(".data.isPrefixOf (pyStripC line)
      · rw [if_pos h2]
        refine List.mem_cons_of_mem _ (List.mem_append_left _ ?_)
        unfold insLines
        simp
      · rw [if_neg h2] at h ⊢
        have : insGo rest inT false ≠ rest := by
          intro he
          exact h (by rw [he])
        exact List.mem_cons_of_mem _ (ih inT this)

theorem insertion_guard (t : List Char)
    (h : joinAll (insGo (splitKE t) false false) ≠ t) :
    occursB guard3a (joinAll (insGo (splitKE t) false false)) = true := by
  have hne : insGo (splitKE t) false false ≠ splitKE t := by
    intro he
    exact h (by rw [he, joinAll_splitKE])
  have hmem : iLine2 ∈ insGo (splitKE t) false false := insGo_changed_mem _ _ hne
  rw [occursB_eq_true_iff]
  have hginf : guard3a <:+: iLine2 := by
    rw [← occursB_eq_true_iff]
    decide
  exact hginf.trans (joinAll_contains_of_mem _ _ hmem)

theorem fix3core_changed_guard (t : List Char) (h : fix3core t ≠ t) :
    occursB guard3a (fix3core t) = true ∨ occursB guard3b (fix3core t) = true := by
  unfold fix3core at h ⊢
  by_cases hc : (occursB needle3a (joinAll (insGo (splitKE t) false false)) &&
      !occursB guard3b (joinAll (insGo (splitKE t) false false))) = true
  · rw [if_pos hc] at h ⊢
    by_cases hrep : pyReplace needle3 repl3 (joinAll (insGo (splitKE t) false false)) =
        joinAll (insGo (splitKE t) false false)
    · rw [hrep] at h ⊢
      exact Or.inl (insertion_guard t h)
    · refine Or.inr ?_
      rw [occursB_eq_true_iff]
      have hinf : repl3 <:+: pyReplace needle3 repl3
          (joinAll (insGo (splitKE t) false false)) := pyReplace_contains_of_ne _ _ _ hrep
      have hg : guard3b <:+: repl3 := by
        rw [← occursB_eq_true_iff]
        decide
      exact hg.trans hinf
  · rw [if_neg hc] at h ⊢
    exact Or.inl (insertion_guard t h)

theorem fix1_idem (t : List Char) :
    fix_common_ps_uint32_hex_overflow ((fix_common_ps_uint32_hex_overflow t).1) =
      ((fix_common_ps_uint32_hex_overflow t).1, false) := by
  unfold fix_common_ps_uint32_hex_overflow
  by_cases h : subAll t ≠ t
  · rw [if_pos h]
    show (if subAll (subAll t) ≠ subAll t then (subAll (subAll t), true)
      else (subAll t, false)) = (subAll t, false)
    rw [if_neg (by rw [subAll_idem t]; exact fun hc => hc rfl)]
  · rw [if_neg h]
    show (if subAll t ≠ t then (subAll t, true) else (t, false)) = (t, false)
    rw [if_neg h]

theorem fix3_runs_clean (t u : List Char) (b : Bool)
    (hE : fix_common_ps_cidr_validation t = (u, b)) :
    fix_common_ps_cidr_validation u = (u, false) := by
  unfold fix_common_ps_cidr_validation at hE
  by_cases h1 : occursB marker3 t = false
  · rw [if_pos h1] at hE
    injection hE with hu hb
    subst hu
    unfold fix_common_ps_cidr_validation
    rw [if_pos h1]
  · rw [if_neg h1] at hE
    by_cases h2 : (occursB guard3a t || occursB guard3b t) = true
    · rw [if_pos h2] at hE
      injection hE with hu hb
      subst hu
      unfold fix_common_ps_cidr_validation
      rw [if_neg h1, if_pos h2]
    · rw [if_neg h2] at hE
      by_cases h3 : fix3core t ≠ t
      · rw [if_pos h3] at hE
        injection hE with hu hb
        subst hu
        unfold fix_common_ps_cidr_validation
        by_cases hm : occursB marker3 (fix3core t) = false
        · rw [if_pos hm]
        · rw [if_neg hm, if_pos ?guard]
          case guard =>
            rcases fix3core_changed_guard t h3 with hg | hg
            · simp [hg]
            · simp [hg]
      · rw [if_neg h3] at hE
        injection hE with hu hb
        subst hu
        unfold fix_common_ps_cidr_validation
        rw [if_neg h1, if_neg h2, if_neg h3]

theorem fix3_idem (t : List Char) :
    fix_common_ps_cidr_validation ((fix_common_ps_cidr_validation t).1) =
      ((fix_common_ps_cidr_validation t).1, false) := by
  rcases hE : fix_common_ps_cidr_validation t with ⟨u, b⟩
  exact fix3_runs_clean t u b hE

/-- Claim C6, counterexample.  The claim says every deterministic
fixer is idempotent.  `fix_common_ps_address_prefixes` is not: on
`c6Input` the first run reports "changed" and the second run on its
output again reports "changed" (its `str.replace` of
`$existingPrefixes = @(...)` by `... -SubnetObj $existing` creates a new
occurrence of the needle spanning the replacement's trailing `$existing`
and the following text). -/
theorem c6_counterexample :
    (fix_common_ps_address_prefixes c6Input).2 = true ∧
    (fix_common_ps_address_prefixes ((fix_common_ps_address_prefixes c6Input).1)).2 = true ∧
    (fix_common_ps_address_prefixes ((fix_common_ps_address_prefixes c6Input).1)).1 ≠
      (fix_common_ps_address_prefixes c6Input).1 := by
  decide

/-- Claim C6, amended.  The uint32-overflow fixer and the
CIDR-validation fixer are idempotent for every starting file text: a
second run on the output of the first changes nothing and reports
"unchanged".  (The address-prefixes fixer is not idempotent in general,
see the counterexample.) -/
theorem c6_fixers_idempotent (t : List Char) :
    fix_common_ps_uint32_hex_overflow ((fix_common_ps_uint32_hex_overflow t).1) =
      ((fix_common_ps_uint32_hex_overflow t).1, false) ∧
    fix_common_ps_cidr_validation ((fix_common_ps_cidr_validation t).1) =
      ((fix_common_ps_cidr_validation t).1, false) :=
  ⟨fix1_idem t, fix3_idem t⟩

/-- Claim C8.  Log retrieval is non-fatal: whenever the provider
returns a non-success status, a non-archive body, or an archive that
fails to decompress, `download_logs` writes a placeholder text file into
the scratch directory and returns normally (a total function into
`LogOutcome` — it never propagates those outcomes as an error), so the
pipeline continues to log reduction and the deterministic fixers. -/
theorem c8_download_logs_degrades (resp : HttpResp) (fetch : String → HttpResp) :
    (download_logs resp fetch = .extracted ∨
      download_logs resp fetch = .downloadFailedPlaceholder ∨
      download_logs resp fetch = .unavailablePlaceholder) ∧
    (¬ (resp.status = 200 ∧ resp.validZip = true) → isRedirect resp.status = false →
      download_logs resp fetch = .unavailablePlaceholder) ∧
    (∀ url, resp.location = some url → url ≠ "" → isRedirect resp.status = true →
      ¬ ((fetch url).status = 200 ∧ (fetch url).validZip = true) →
      download_logs resp fetch = .downloadFailedPlaceholder) := by
  refine ⟨?_, ?_, ?_⟩
  · unfold download_logs
    cases resp.location with
    | none =>
      dsimp only
      by_cases h : (resp.status == 200 && resp.validZip) = true
      · rw [if_pos h]; exact Or.inl rfl
      · rw [if_neg h]; exact Or.inr (Or.inr rfl)
    | some url =>
      dsimp only
      by_cases h1 : (isRedirect resp.status && url != "") = true
      · rw [if_pos h1]
        by_cases h2 : ((fetch url).status == 200 && (fetch url).validZip) = true
        · rw [if_pos h2]; exact Or.inl rfl
        · rw [if_neg h2]; exact Or.inr (Or.inl rfl)
      · rw [if_neg h1]
        by_cases h2 : (resp.status == 200 && resp.validZip) = true
        · rw [if_pos h2]; exact Or.inl rfl
        · rw [if_neg h2]; exact Or.inr (Or.inr rfl)
  · intro hfail hnr
    unfold download_logs
    have hs : (resp.status == 200 && resp.validZip) = false := by
      rcases Decidable.em (resp.status = 200) with hs | hs
      · have hv : resp.validZip = false := by
          cases hzv : resp.validZip with
          | true => exact absurd ⟨hs, hzv⟩ hfail
          | false => rfl
        simp [hv]
      · simp [hs]
    cases resp.location with
    | none =>
      dsimp only
      rw [if_neg (by simp [hs])]
    | some url =>
      dsimp only
      rw [if_neg (by simp [hnr]), if_neg (by simp [hs])]
  · intro url hloc hne hr hfail
    unfold download_logs
    rw [hloc]
    dsimp only
    have h1 : (isRedirect resp.status && url != "") = true := by
      simp [hr, hne]
    rw [if_pos h1]
    have h2 : ((fetch url).status == 200 && (fetch url).validZip) = false := by
      rcases Decidable.em ((fetch url).status = 200) with hs | hs
      · have hv : (fetch url).validZip = false := by
          cases hzv : (fetch url).validZip with
          | true => exact absurd ⟨hs, hzv⟩ hfail
          | false => rfl
        simp [hv]
      · simp [hs]
    rw [if_neg (by simp [h2])]

theorem c8_download_logs_degrades_witness :
    (¬ ((404 : Nat) = 200 ∧ false = true) ∧ isRedirect 404 = false ∧
      download_logs ⟨404, none, false⟩ (fun _ => ⟨200, none, true⟩) = .unavailablePlaceholder) ∧
    ((some ("https://signed") : Option String) = some ("https://signed") ∧
      isRedirect 302 = true ∧ ¬ ((200 : Nat) = 200 ∧ false = true) ∧
      download_logs ⟨302, some ("https://signed"), true⟩ (fun _ => ⟨200, none, false⟩) =
        .downloadFailedPlaceholder) :=
  ⟨⟨by decide, by decide,
      (c8_download_logs_degrades ⟨404, none, false⟩ (fun _ => ⟨200, none, true⟩)).2.1
        (by decide) (by decide)⟩,
    ⟨rfl, by decide, by decide,
      (c8_download_logs_degrades ⟨302, some ("https://signed"), true⟩
          (fun _ => ⟨200, none, false⟩)).2.2 ("https://signed") rfl (by decide) (by decide)
        (by decide)⟩⟩

/-- Claim C9, counterexample.  The claim says a rejected commit or
push is handled by the stage itself and reported via the command's
captured output.  But `run` defaults to `check=True`, so a nonzero
`git commit` raises `CalledProcessError`, which escapes
`maybe_commit_and_push`; the captured stdout/stderr are never printed
(the stage reports nothing). -/
theorem c9_counterexample :
    (maybe_commit_and_push c9Git).2 = .error ("CalledProcessError") ∧
    (maybe_commit_and_push c9Git).1 = [] := by
  decide

/-- Claim C9, amended.  A rejected `git commit` or `git push` is not
handled inside `maybe_commit_and_push`: because `run` keeps its default
`check=True`, the nonzero exit raises `CalledProcessError`, which escapes
the function (to be caught only by the top-level handler); the captured
stdout/stderr of the failing command are not reported by the stage.  Only
commands that exit 0 have their captured output printed. -/
theorem c9_commit_push_escape (g : GitEnv)
    (hst : g.status.exitCode = 0) (hdirty : pyStrip g.status.stdout ≠ "")
    (hc1 : g.configName.exitCode = 0) (hc2 : g.configEmail.exitCode = 0)
    (hadd : g.addAll.exitCode = 0) :
    (g.commit.exitCode ≠ 0 → maybe_commit_and_push g = ([], .error ("CalledProcessError"))) ∧
    (g.commit.exitCode = 0 → g.push.exitCode ≠ 0 →
      (maybe_commit_and_push g).2 = .error ("CalledProcessError")) := by
  have hrst : runCmd true g.status = .ok g.status := by
    unfold runCmd
    rw [if_neg]
    intro hc
    exact hc.2 hst
  have hrc1 : runCmd true g.configName = .ok g.configName := by
    unfold runCmd
    rw [if_neg]
    intro hc
    exact hc.2 hc1
  have hrc2 : runCmd true g.configEmail = .ok g.configEmail := by
    unfold runCmd
    rw [if_neg]
    intro hc
    exact hc.2 hc2
  have hradd : runCmd true g.addAll = .ok g.addAll := by
    unfold runCmd
    rw [if_neg]
    intro hc
    exact hc.2 hadd
  constructor
  · intro hcommit
    have hrcm : runCmd true g.commit = .error ("CalledProcessError") := by
      unfold runCmd
      rw [if_pos ⟨rfl, hcommit⟩]
    unfold maybe_commit_and_push
    rw [hrst]
    dsimp only
    rw [if_neg hdirty, hrc1, hrc2, hradd, hrcm]
  · intro hcommit hpush
    have hrcm : runCmd true g.commit = .ok g.commit := by
      unfold runCmd
      rw [if_neg]
      intro hc
      exact hc.2 hcommit
    have hrp : runCmd true g.push = .error ("CalledProcessError") := by
      unfold runCmd
      rw [if_pos ⟨rfl, hpush⟩]
    unfold maybe_commit_and_push
    rw [hrst]
    dsimp only
    rw [if_neg hdirty, hrc1, hrc2, hradd, hrcm]
    dsimp only
    rw [hrp]

theorem c9_commit_push_escape_witness :
    ((c9Git.status.exitCode = 0 ∧ pyStrip c9Git.status.stdout ≠ "" ∧
        c9Git.configName.exitCode = 0 ∧ c9Git.configEmail.exitCode = 0 ∧
        c9Git.addAll.exitCode = 0 ∧ c9Git.commit.exitCode ≠ 0) ∧
      maybe_commit_and_push c9Git = ([], .error ("CalledProcessError"))) :=
  ⟨⟨rfl, by decide, rfl, rfl, rfl, by decide⟩,
    (c9_commit_push_escape c9Git rfl (by decide) rfl rfl rfl).1 (by decide)⟩

/-- Claim C4.  Whatever the environment and whatever exception any
stage raises, the top-level entry point catches it, writes it as a
warning, and the process exits with status 0 — an internal failure never
propagates as a crash. -/
theorem c4_top_level_exits_zero (env : MainEnv) :
    (topLevel env).exitCode = 0 ∧
    (∀ e, (mainRun env).2 = .error e →
      (topLevel env).warnings = ["[SELF_HEAL_WARN] " ++ e ++ "\n"]) := by
  unfold topLevel
  rcases h : mainRun env with ⟨evs, r⟩
  cases r with
  | ok u =>
    refine ⟨rfl, ?_⟩
    intro e he
    exact absurd he (by simp)
  | error e0 =>
    refine ⟨rfl, ?_⟩
    intro e he
    have he2 : (Except.error e0 : Except String Unit) = Except.error e := he
    injection he2 with he2
    rw [he2]

theorem c4_top_level_exits_zero_witness :
    (topLevel c4Env).exitCode = 0 ∧
    (topLevel c4Env).warnings =
      ["[SELF_HEAL_WARN] OpenAI API failed (500): boom\n"] :=
  ⟨(c4_top_level_exits_zero c4Env).1,
    (c4_top_level_exits_zero c4Env).2 ("OpenAI API failed (500): boom") (by decide)⟩

/-- Claim C5.  The deterministic fixer path and the AI path are
mutually exclusive: when `try_builtin_fixes` reports a change, `main`
proceeds directly to commit-and-push and the AI path is skipped entirely
— the prompt is never built, the model is never called, and no patches
are parsed or applied in that run. -/
theorem c5_builtin_skips_ai (env : MainEnv) (logs : String)
    (h1 : ∃ v, env_required env.getenv ("GITHUB_REPOSITORY") = .ok v)
    (h2 : ∃ v, env_required env.getenv ("GITHUB_RUN_ID") = .ok v)
    (h3 : ∃ v, env_required env.getenv ("GITHUB_REF_NAME") = .ok v)
    (h4 : ∃ v, env_optional env.getenv ("REPO_WRITE_TOKEN") = some v)
    (h5 : env.download = .ok ())
    (h6 : env.collect = .ok logs)
    (h7 : env.builtin logs = .ok true) :
    (mainRun env).1 = [.downloadLogs, .collectLogs, .builtinFixes, .commitPush] ∧
    Event.buildPrompt ∉ (mainRun env).1 ∧
    Event.callOpenAI ∉ (mainRun env).1 ∧
    Event.parsePatchesEv ∉ (mainRun env).1 ∧
    Event.applyPatchesEv ∉ (mainRun env).1 := by
  obtain ⟨v1, h1⟩ := h1
  obtain ⟨v2, h2⟩ := h2
  obtain ⟨v3, h3⟩ := h3
  obtain ⟨v4, h4⟩ := h4
  have hmain : (mainRun env).1 = [.downloadLogs, .collectLogs, .builtinFixes, .commitPush] := by
    unfold mainRun
    simp only [h1, h2, h3, h4, h5, h6, h7, if_true]
    cases env.commitPush with
    | error e => rfl
    | ok u => rfl
  refine ⟨hmain, ?_, ?_, ?_, ?_⟩ <;> rw [hmain] <;> decide

theorem c5_builtin_skips_ai_witness :
    (mainRun c5Env).1 = [.downloadLogs, .collectLogs, .builtinFixes, .commitPush] ∧
    Event.buildPrompt ∉ (mainRun c5Env).1 ∧
    Event.callOpenAI ∉ (mainRun c5Env).1 ∧
    Event.parsePatchesEv ∉ (mainRun c5Env).1 ∧
    Event.applyPatchesEv ∉ (mainRun c5Env).1 :=
  c5_builtin_skips_ai c5Env ("Cannot convert value \"-1\" to type \"System.UInt32\"")
    ⟨"val", by decide⟩ ⟨"val", by decide⟩ ⟨"val", by decide⟩ ⟨"val", by decide⟩
    rfl rfl rfl

/-- Claim C10.  An environment variable set to the empty string is
treated identically to an absent one: `env_required` raises the same
error for an empty value as for a missing one, and `env_optional`
returns `None` for an empty value — so an empty `REPO_WRITE_TOKEN`
triggers `main`'s early no-op return and an empty `OPENAI_API_KEY`
disables the AI path. -/
theorem c10_empty_env_like_absent :
    (∀ (g : String → Option String) (name : String),
      g name = none ∨ g name = some ("") →
      env_required g name = .error ("Missing required environment variable: " ++ name)) ∧
    (∀ (g : String → Option String) (name : String),
      g name = none ∨ g name = some ("") → env_optional g name = none) ∧
    (∀ env : MainEnv,
      (∃ v, env_required env.getenv ("GITHUB_REPOSITORY") = .ok v) →
      (∃ v, env_required env.getenv ("GITHUB_RUN_ID") = .ok v) →
      (∃ v, env_required env.getenv ("GITHUB_REF_NAME") = .ok v) →
      env.getenv ("REPO_WRITE_TOKEN") = some ("") →
      mainRun env = ([], .ok ())) ∧
    (∀ (env : MainEnv) (logs : String),
      (∃ v, env_required env.getenv ("GITHUB_REPOSITORY") = .ok v) →
      (∃ v, env_required env.getenv ("GITHUB_RUN_ID") = .ok v) →
      (∃ v, env_required env.getenv ("GITHUB_REF_NAME") = .ok v) →
      (∃ v, env_optional env.getenv ("REPO_WRITE_TOKEN") = some v) →
      env.download = .ok () →
      env.collect = .ok logs →
      env.builtin logs = .ok false →
      env.getenv ("OPENAI_API_KEY") = some ("") →
      mainRun env = ([.downloadLogs, .collectLogs, .builtinFixes], .ok ())) := by
  have hreq : ∀ (g : String → Option String) (name : String),
      g name = none ∨ g name = some ("") →
      env_required g name = .error ("Missing required environment variable: " ++ name) := by
    intro g name h
    unfold env_required
    rcases h with h | h
    · rw [h]
    · rw [h]
      dsimp only
      rw [if_pos rfl]
  have hopt : ∀ (g : String → Option String) (name : String),
      g name = none ∨ g name = some ("") → env_optional g name = none := by
    intro g name h
    unfold env_optional
    rcases h with h | h
    · rw [h]
    · rw [h]
      dsimp only
      rw [if_pos rfl]
  refine ⟨hreq, hopt, ?_, ?_⟩
  · intro env h1 h2 h3 htok
    obtain ⟨v1, h1⟩ := h1
    obtain ⟨v2, h2⟩ := h2
    obtain ⟨v3, h3⟩ := h3
    have ht : env_optional env.getenv ("REPO_WRITE_TOKEN") = none :=
      hopt env.getenv ("REPO_WRITE_TOKEN") (Or.inr htok)
    unfold mainRun
    simp only [h1, h2, h3, ht]
  · intro env logs h1 h2 h3 h4 h5 h6 h7 hkey
    obtain ⟨v1, h1⟩ := h1
    obtain ⟨v2, h2⟩ := h2
    obtain ⟨v3, h3⟩ := h3
    obtain ⟨v4, h4⟩ := h4
    have hk : env_optional env.getenv ("OPENAI_API_KEY") = none :=
      hopt env.getenv ("OPENAI_API_KEY") (Or.inr hkey)
    unfold mainRun
    simp only [h1, h2, h3, h4, h5, h6, h7, hk, if_false, Bool.false_eq_true]

theorem c10_empty_env_like_absent_witness :
    env_required (fun _ => some ("")) "GITHUB_REPOSITORY" =
      .error ("Missing required environment variable: GITHUB_REPOSITORY") ∧
    env_optional (fun _ => some ("")) "OPENAI_API_KEY" = none ∧
    mainRun c10EnvToken = ([], .ok ()) ∧
    mainRun c10EnvKey = ([.downloadLogs, .collectLogs, .builtinFixes], .ok ()) :=
  ⟨c10_empty_env_like_absent.1 (fun _ => some ("")) "GITHUB_REPOSITORY" (Or.inr rfl),
    c10_empty_env_like_absent.2.1 (fun _ => some ("")) "OPENAI_API_KEY" (Or.inr rfl),
    c10_empty_env_like_absent.2.2.1 c10EnvToken ⟨"v", by decide⟩ ⟨"v", by decide⟩
      ⟨"v", by decide⟩ (by decide),
    c10_empty_env_like_absent.2.2.2 c10EnvKey ("logs") ⟨"v", by decide⟩ ⟨"v", by decide⟩
      ⟨"v", by decide⟩ ⟨"v", by decide⟩ rfl rfl rfl (by decide)⟩

end SelfHeal

